import Mathlib

/-!
# godoc2yaml: the docfx tree mapper (`godoc/docfx.go`)

A shallow embedding of `toDocfx` and its sequence mappers, together with the
two text helpers `summary` and `description`.

Conventions of the embedding:

* a Go pointer is `Ptr α` (`none` is the nil pointer);
* a Go slice is `Slice α`: either the nil slice or a present slice with a
  backing list (possibly of length zero);
* a Go map with string keys is `GoMap V`: either the nil map or a present
  table with pairwise distinct keys;
* a function that may panic (nil dereference, index out of range) returns
  `Option`, with `none` standing for the run-time panic;
* syntax nodes of `go/ast` are values of a type parameter `A`; the mapper only
  hands them to the code renderer.
-/

namespace Godoc

/-! ## Go values -/

/-- A Go pointer: `none` is nil. -/
abbrev Ptr (α : Type) := Option α

/-- A Go slice: the nil slice, or a present slice over a backing list. -/
inductive Slice (α : Type) where
  | null : Slice α
  | mk (elems : List α) : Slice α
deriving DecidableEq

namespace Slice

/-- The elements visited by `range` (none for the nil slice). -/
def toList {α : Type} : Slice α → List α
  | null => []
  | mk xs => xs

/-- Go `len`. -/
def len {α : Type} (s : Slice α) : Nat := s.toList.length

/-- Go `s == nil`. -/
def isNil {α : Type} : Slice α → Bool
  | null => true
  | mk _ => false

/-- Go `make([]T, n)`: a present slice of `n` zero values. -/
def make {α : Type} (zero : α) (n : Nat) : Slice α := mk (List.replicate n zero)

end Slice

/-- A Go map keyed by strings: the nil map, or a present table. -/
inductive GoMap (V : Type) where
  | null : GoMap V
  | mk (table : AList (fun _ : String => V)) : GoMap V

namespace GoMap

/-- The key/value pairs visited by `range` (none for the nil map). -/
def entries {V : Type} : GoMap V → List (Sigma (fun _ : String => V))
  | null => []
  | mk t => t.entries

/-- Go `v, ok := m[k]`. -/
def lookup {V : Type} (k : String) : GoMap V → Option V
  | null => none
  | mk t => t.lookup k

/-- Go `m == nil`. -/
def isNil {V : Type} : GoMap V → Bool
  | null => true
  | mk _ => false

/-- Go `len(m)`. -/
def len {V : Type} (m : GoMap V) : Nat := m.entries.length

end GoMap

/-! ## Text helpers -/

/-- The white space recognised by the text helpers: space, newline, carriage
return and tab. -/
def isBlankChar (c : Char) : Bool :=
  c == ' ' || c == '\n' || c == '\r' || c == '\t'

/-- Modelled from the spec: the sentence scan of go/doc's `Synopsis` (standard
library, not part of this repository). It returns the length of "the leading run
of text up to and including the first sentence-terminating period that is not
part of an abbreviation/heuristic exclusion": the scan stops at the first white
space that follows a period, unless that period follows exactly one upper-case
letter (an initial such as `J.`). `ppp`, `pp`, `p` are the three characters
read before the rest of the text. -/
def firstSentenceLen (ppp pp p : Char) : List Char → Nat
  | [] => 0
  | q :: rest =>
    let q := if isBlankChar q then ' ' else q
    if q == ' ' && p == '.' && (!pp.isUpper || ppp.isUpper) then 0
    else firstSentenceLen pp p q rest + 1

/-- Modelled from the spec: the white-space pass of go/doc's `Synopsis`
("interior whitespace collapsed to single spaces"). Every run of white space is
emitted as one space; `p` is the last character emitted (a space at the start,
so leading white space is dropped). -/
def cleanRun (p : Char) : List Char → List Char
  | [] => []
  | q :: rest =>
    let q := if isBlankChar q then ' ' else q
    if q != ' ' || p != ' ' then q :: cleanRun q rest else cleanRun p rest

/-- Modelled from the spec: collapse white space and drop a trailing blank. -/
def clean (s : List Char) : List Char :=
  let b := cleanRun ' ' s
  if b.getLast? = some ' ' then b.dropLast else b

/-- Modelled from the spec: go/doc's `Synopsis` (standard library, not part of
this repository): the cleaned first sentence of the text. -/
def Synopsis (s : String) : String :=
  String.mk (clean (s.data.take (firstSentenceLen (Char.ofNat 0) (Char.ofNat 0) (Char.ofNat 0) s.data)))

/-- Split a text at newlines (the newline itself is dropped). -/
def splitLinesAux (cur : List Char) : List Char → List (List Char)
  | [] => if cur.isEmpty then [] else [cur.reverse]
  | c :: rest =>
    if c == '\n' then cur.reverse :: splitLinesAux [] rest
    else splitLinesAux (c :: cur) rest

/-- The white-space separated words of a line. -/
def fieldsAux (cur : List Char) : List Char → List (List Char)
  | [] => if cur.isEmpty then [] else [cur.reverse]
  | c :: rest =>
    if isBlankChar c then
      (if cur.isEmpty then fieldsAux [] rest else cur.reverse :: fieldsAux [] rest)
    else fieldsAux (c :: cur) rest

/-- A block of a comment: a paragraph (its lines) or a preformatted block. -/
inductive Block where
  | para (lines : List (List Char)) : Block
  | pre (lines : List (List Char)) : Block
deriving DecidableEq

/-- A line holding white space only. -/
def isBlankLine (l : List Char) : Bool := l.all isBlankChar

/-- A line that starts with white space. -/
def isIndented (l : List Char) : Bool :=
  match l with
  | [] => false
  | c :: _ => c == ' ' || c == '\t'

/-- Close the block being collected, if any. -/
def closeBlock : Option Block → List Block
  | none => []
  | some (Block.para ls) => [Block.para ls.reverse]
  | some (Block.pre ls) => [Block.pre ls.reverse]

/-- Modelled from the spec: the block structure of a comment for go/doc's
`ToText`: blank lines separate blocks, a run of indented lines is a preformatted
block, a run of other lines is a paragraph. `cur` is the block being collected,
its lines in reverse. -/
def blocksAux (cur : Option Block) : List (List Char) → List Block
  | [] => closeBlock cur
  | l :: rest =>
    if isBlankLine l then closeBlock cur ++ blocksAux none rest
    else if isIndented l then
      match cur with
      | some (Block.pre ls) => blocksAux (some (Block.pre (l :: ls))) rest
      | _ => closeBlock cur ++ blocksAux (some (Block.pre [l])) rest
    else
      match cur with
      | some (Block.para ls) => blocksAux (some (Block.para (l :: ls))) rest
      | _ => closeBlock cur ++ blocksAux (some (Block.para [l])) rest

/-- Modelled from the spec: the line wrapper of go/doc's `ToText`. Words are
written separated by one space; a word that would make the line longer than
`width` starts a new line; every line starts with `indent`. `n` is the length of
the line being written. -/
def wrapWords (indent : List Char) (width : Nat) (n : Nat) : List (List Char) → List Char
  | [] => if n = 0 then [] else ['\n']
  | w :: ws =>
    if n = 0 then indent ++ w ++ wrapWords indent width w.length ws
    else if n + 1 + w.length > width then
      '\n' :: (indent ++ w ++ wrapWords indent width w.length ws)
    else ' ' :: (w ++ wrapWords indent width (n + 1 + w.length) ws)

/-- The longest common prefix of two lists. -/
def commonPrefix : List Char → List Char → List Char
  | a :: as, b :: bs => if a == b then a :: commonPrefix as bs else []
  | _, _ => []

/-- The white space shared by the starts of all the lines of a block. -/
def commonIndent : List (List Char) → List Char
  | [] => []
  | [l] => l.takeWhile isBlankChar
  | l :: ls => commonPrefix (l.takeWhile isBlankChar) (commonIndent ls)

/-- Render one block: a paragraph is reflowed word by word; the lines of a
preformatted block lose their common indentation and get `preIndent`. -/
def renderBlock (indent preIndent : List Char) (width : Nat) : Block → List Char
  | Block.para ls => wrapWords indent width 0 (ls.flatMap (fieldsAux []))
  | Block.pre ls =>
    ls.flatMap (fun l => preIndent ++ l.drop (commonIndent ls).length ++ ['\n'])

/-- Render the blocks, one blank line between two blocks. -/
def renderBlocks (indent preIndent : List Char) (width : Nat) : List Block → List Char
  | [] => []
  | [b] => renderBlock indent preIndent width b
  | b :: bs => renderBlock indent preIndent width b ++ '\n' :: renderBlocks indent preIndent width bs

/-- Modelled from the spec: go/doc's `ToText` (standard library, not part of
this repository): "reflows the entire comment to plain text, preserving
paragraph boundaries, using a fixed per-line indent" and a wrap width. -/
def ToText (text : String) (indent preIndent : String) (width : Nat) : String :=
  String.mk (renderBlocks indent.data preIndent.data width (blocksAux none (splitLinesAux [] text.data)))

/-- `summary` of docfx.go. -/
def summary (d : String) : String := Synopsis d

/-- `description` of docfx.go. -/
def description (d : String) : String := ToText d "" "    " 999999

/-! ## Output model (docfx.go) -/

/-- `DocsDir` of docfx.go. -/
structure DocsDir where
  Name : String
  Path : String
  Summary : String
  HasPkg : Bool
deriving DecidableEq

/-- `DocsNote` of docfx.go. -/
structure DocsNote where
  UID : String
  Description : String
deriving DecidableEq

/-- `DocsExample` of docfx.go. -/
structure DocsExample where
  Name : String
  Code : String
deriving DecidableEq

/-- `DocsValue` of docfx.go. -/
structure DocsValue where
  Names : Slice String
  Summary : String
  Description : String
  Code : String
deriving DecidableEq

/-- `DocsFunc` of docfx.go. -/
structure DocsFunc where
  Name : String
  Summary : String
  Description : String
  Code : String
deriving DecidableEq

/-- `DocsType` of docfx.go. -/
structure DocsType where
  Name : String
  Summary : String
  Description : String
  Code : String
  Consts : Slice DocsValue
  Vars : Slice DocsValue
  Funcs : Slice DocsFunc
  Methods : Slice DocsFunc
deriving DecidableEq

/-- `DocsPackage` of docfx.go. -/
structure DocsPackage where
  IsMain : Bool
  Summary : String
  Description : String
  ImportPath : String
  Dir : String
  Consts : Slice DocsValue
  Types : Slice DocsType
  Vars : Slice DocsValue
  Funcs : Slice DocsFunc
  Notes : GoMap (Slice DocsNote)
  Examples : Slice DocsExample
  Dirs : Slice DocsDir

/-- The Go zero value of `DocsDir`. -/
def DocsDir.zero : DocsDir := ⟨"", "", "", false⟩

/-- The Go zero value of `DocsNote`. -/
def DocsNote.zero : DocsNote := ⟨"", ""⟩

/-- The Go zero value of `DocsExample`. -/
def DocsExample.zero : DocsExample := ⟨"", ""⟩

/-- The Go zero value of `DocsValue`. -/
def DocsValue.zero : DocsValue := ⟨Slice.null, "", "", ""⟩

/-- The Go zero value of `DocsFunc`. -/
def DocsFunc.zero : DocsFunc := ⟨"", "", "", ""⟩

/-- The Go zero value of `DocsType`. -/
def DocsType.zero : DocsType :=
  ⟨"", "", "", "", Slice.null, Slice.null, Slice.null, Slice.null⟩

/-- The Go zero value of `DocsPackage`. -/
def DocsPackage.zero : DocsPackage :=
  ⟨false, "", "", "", "", Slice.null, Slice.null, Slice.null, Slice.null, GoMap.null,
    Slice.null, Slice.null⟩

/-! ## Input model

The input types are declared outside docfx.go (go/doc, go/printer and the rest
of package godoc); only the fields docfx.go reads are kept. -/

/-- Modelled from the spec: go/doc's `Note` (fields read by the mapper). -/
structure doc.Note where
  UID : String
  Body : String
deriving DecidableEq

/-- Modelled from the spec: go/doc's `Example` (fields read by the mapper):
the executable expression and its comments are syntax nodes. -/
structure doc.Example (A : Type) where
  Name : String
  Code : A
  Comments : Slice A

/-- Modelled from the spec: go/doc's `Value`, a grouped const or var
declaration (fields read by the mapper). -/
structure doc.Value (A : Type) where
  Doc : String
  Names : Slice String
  Decl : A

/-- Modelled from the spec: go/doc's `Func` (fields read by the mapper). -/
structure doc.Func (A : Type) where
  Doc : String
  Name : String
  Decl : A

/-- Modelled from the spec: go/doc's `Type` (fields read by the mapper): a
type owns its consts, vars, constructor funcs and methods. -/
structure doc.Type (A : Type) where
  Doc : String
  Name : String
  Decl : A
  Consts : Slice (Ptr (doc.Value A))
  Vars : Slice (Ptr (doc.Value A))
  Funcs : Slice (Ptr (doc.Func A))
  Methods : Slice (Ptr (doc.Func A))

/-- Modelled from the spec: go/doc's `Package`, the primary documentation
section (fields read by the mapper). -/
structure doc.Package (A : Type) where
  Doc : String
  ImportPath : String
  Consts : Slice (Ptr (doc.Value A))
  Types : Slice (Ptr (doc.Type A))
  Vars : Slice (Ptr (doc.Value A))
  Funcs : Slice (Ptr (doc.Func A))

/-- Modelled from the spec: `DirEntry` of package godoc, a child directory
(fields read by the mapper). -/
structure DirEntry where
  Name : String
  Path : String
  Synopsis : String
  HasPkg : Bool
deriving DecidableEq

/-- Modelled from the spec: `DirList` of package godoc (field read by the
mapper). -/
structure DirList where
  List : Slice DirEntry

/-- Modelled from the spec: `PageInfo` of package godoc, the input model of one
page (fields read by the mapper). -/
structure PageInfo (A : Type) where
  Dirname : String
  PDoc : Ptr (doc.Package A)
  Examples : Slice (Ptr (doc.Example A))
  Notes : GoMap (Slice (Ptr doc.Note))
  Dirs : Ptr DirList
  IsMain : Bool

/-- Modelled from the spec: go/printer's `CommentedNode`, a syntax node paired
with its comments. -/
structure printer.CommentedNode (A : Type) where
  Node : A
  Comments : Slice A

/-- What the mapper hands to the code renderer: a declaration node, or a
commented node built for an example. -/
inductive RenderArg (A : Type) where
  | node (n : A) : RenderArg A
  | commented (cnode : printer.CommentedNode A) : RenderArg A

/-- Modelled from the spec: `Presentation` of package godoc, of which the
mapper uses only the code renderer `nodeFunc`: "given a rendering context and a
syntax node ... return its formatted source text as a string". -/
structure Presentation (A : Type) where
  nodeFunc : Ptr (PageInfo A) → RenderArg A → String

/-! ## The mapper (docfx.go) -/

/-- Go `arr[i] = y`: panics when `i` is out of range. -/
def Slice.set {β : Type} (arr : Slice β) (i : Nat) (y : β) : Option (Slice β) :=
  if i < arr.len then some (Slice.mk (arr.toList.set i y)) else none

/-- The loop `for i, x := range xs { arr[i] = body x }`, from index `i` on.
The body may panic. -/
def rangeAssign {α β : Type} (body : α → Option β) : List α → Nat → Slice β → Option (Slice β)
  | [], _, arr => some arr
  | x :: xs, i, arr =>
    match body x with
    | none => none
    | some y =>
      match arr.set i y with
      | none => none
      | some arr1 => rangeAssign body xs (i + 1) arr1

/-- `toDocsDirs` of docfx.go. -/
def toDocsDirs (dirs : Ptr DirList) : Option (Slice DocsDir) :=
  match dirs with
  | none => some (Slice.mk [])
  | some dl =>
    rangeAssign
      (fun d => some { Name := d.Name, Path := d.Path, Summary := d.Synopsis, HasPkg := d.HasPkg })
      dl.List.toList 0 (Slice.make DocsDir.zero dl.List.len)

/-- The loop body of `toDocsFuncs`. -/
def funcBody {A : Type} (p : Presentation A) (info : Ptr (PageInfo A)) :
    Ptr (doc.Func A) → Option DocsFunc
  | none => none
  | some f => some
      { Name := f.Name
        Summary := summary f.Doc
        Description := description f.Doc
        Code := p.nodeFunc info (RenderArg.node f.Decl) }

/-- `toDocsFuncs` of docfx.go. -/
def toDocsFuncs {A : Type} (funcs : Slice (Ptr (doc.Func A))) (p : Presentation A)
    (info : Ptr (PageInfo A)) : Option (Slice DocsFunc) :=
  rangeAssign (funcBody p info) funcs.toList 0 (Slice.make DocsFunc.zero funcs.len)

/-- The loop body of `toDocsValues`. -/
def valueBody {A : Type} (p : Presentation A) (info : Ptr (PageInfo A)) :
    Ptr (doc.Value A) → Option DocsValue
  | none => none
  | some v => some
      { Names := v.Names
        Summary := summary v.Doc
        Description := description v.Doc
        Code := p.nodeFunc info (RenderArg.node v.Decl) }

/-- `toDocsValues` of docfx.go. -/
def toDocsValues {A : Type} (values : Slice (Ptr (doc.Value A))) (p : Presentation A)
    (info : Ptr (PageInfo A)) : Option (Slice DocsValue) :=
  rangeAssign (valueBody p info) values.toList 0 (Slice.make DocsValue.zero values.len)

/-- The loop body of `toDocsTypes`. -/
def typeBody {A : Type} (p : Presentation A) (info : Ptr (PageInfo A)) :
    Ptr (doc.Type A) → Option DocsType
  | none => none
  | some t =>
    match toDocsValues t.Consts p info with
    | none => none
    | some consts =>
    match toDocsValues t.Vars p info with
    | none => none
    | some vars =>
    match toDocsFuncs t.Funcs p info with
    | none => none
    | some funcs =>
    match toDocsFuncs t.Methods p info with
    | none => none
    | some methods => some
      { Name := t.Name
        Summary := summary t.Doc
        Description := description t.Doc
        Code := p.nodeFunc info (RenderArg.node t.Decl)
        Consts := consts
        Vars := vars
        Funcs := funcs
        Methods := methods }

/-- `toDocsTypes` of docfx.go. -/
def toDocsTypes {A : Type} (types : Slice (Ptr (doc.Type A))) (p : Presentation A)
    (info : Ptr (PageInfo A)) : Option (Slice DocsType) :=
  rangeAssign (typeBody p info) types.toList 0 (Slice.make DocsType.zero types.len)

/-- The loop body of `toDocsExamples`. -/
def exampleBody {A : Type} (p : Presentation A) (info : Ptr (PageInfo A)) :
    Ptr (doc.Example A) → Option DocsExample
  | none => none
  | some eg =>
    let cnode : printer.CommentedNode A := { Node := eg.Code, Comments := eg.Comments }
    some { Name := eg.Name, Code := p.nodeFunc info (RenderArg.commented cnode) }

/-- `toDocsExamples` of docfx.go. -/
def toDocsExamples {A : Type} (examples : Slice (Ptr (doc.Example A))) (p : Presentation A)
    (info : Ptr (PageInfo A)) : Option (Slice DocsExample) :=
  rangeAssign (exampleBody p info) examples.toList 0 (Slice.make DocsExample.zero examples.len)

/-- The inner loop body of `toDocsNotes`. -/
def noteBody : Ptr doc.Note → Option DocsNote
  | none => none
  | some n => some { UID := n.UID, Description := n.Body }

/-- The outer loop of `toDocsNotes`: `for k, v := range notes { ...; m[k] = arr }`. -/
def rangeNotes : List (Sigma (fun _ : String => Slice (Ptr doc.Note))) →
    AList (fun _ : String => Slice DocsNote) → Option (AList (fun _ : String => Slice DocsNote))
  | [], m => some m
  | ⟨k, v⟩ :: rest, m =>
    match rangeAssign noteBody v.toList 0 (Slice.make DocsNote.zero v.len) with
    | none => none
    | some arr => rangeNotes rest (m.insert k arr)

/-- `toDocsNotes` of docfx.go. -/
def toDocsNotes (notes : GoMap (Slice (Ptr doc.Note))) : Option (GoMap (Slice DocsNote)) :=
  (rangeNotes notes.entries ∅).map GoMap.mk

/-- `toDocfx` of docfx.go. The fields not named in the struct literal keep their
zero values. -/
def toDocfx {A : Type} (p : Presentation A) (info : Ptr (PageInfo A)) : Option DocsPackage :=
  match info with
  | none => none
  | some i =>
    match toDocsNotes i.Notes with
    | none => none
    | some notes =>
    match toDocsDirs i.Dirs with
    | none => none
    | some dirs =>
    let pkg : DocsPackage :=
      { DocsPackage.zero with IsMain := i.IsMain, Dir := i.Dirname, Notes := notes, Dirs := dirs }
    match i.PDoc with
    | none => some pkg
    | some pdoc =>
      match toDocsExamples i.Examples p info with
      | none => none
      | some examples =>
      match toDocsValues pdoc.Consts p info with
      | none => none
      | some consts =>
      match toDocsValues pdoc.Vars p info with
      | none => none
      | some vars =>
      match toDocsFuncs pdoc.Funcs p info with
      | none => none
      | some funcs =>
      match toDocsTypes pdoc.Types p info with
      | none => none
      | some types => some
        { pkg with
          ImportPath := pdoc.ImportPath
          Summary := summary pdoc.Doc
          Description := description pdoc.Doc
          Examples := examples
          Consts := consts
          Vars := vars
          Funcs := funcs
          Types := types }

/-! ## Well-formed inputs

The mapper dereferences every element pointer it visits, so an input sequence is
well formed when it holds no nil pointer. -/

/-- No element of the slice is a nil pointer. -/
def NoNil {α : Type} (s : Slice (Ptr α)) : Prop := ∀ e ∈ s.toList, e.isSome = true

instance {α : Type} (s : Slice (Ptr α)) : Decidable (NoNil s) :=
  inferInstanceAs (Decidable (∀ e ∈ s.toList, e.isSome = true))

/-- A type whose four nested sequences hold no nil pointer. -/
def doc.Type.WF {A : Type} (t : Godoc.doc.Type A) : Prop :=
  NoNil t.Consts ∧ NoNil t.Vars ∧ NoNil t.Funcs ∧ NoNil t.Methods

instance {A : Type} (t : Godoc.doc.Type A) : Decidable t.WF :=
  inferInstanceAs (Decidable (NoNil t.Consts ∧ NoNil t.Vars ∧ NoNil t.Funcs ∧ NoNil t.Methods))

/-- A non-nil pointer to a well-formed type. -/
def TypePtrWF {A : Type} : Ptr (Godoc.doc.Type A) → Prop
  | none => False
  | some t => t.WF

instance {A : Type} (e : Ptr (Godoc.doc.Type A)) : Decidable (TypePtrWF e) :=
  match e with
  | none => isFalse (fun h => h)
  | some t => inferInstanceAs (Decidable t.WF)

/-- A sequence of types without nil pointers at any depth. -/
def TypesWF {A : Type} (s : Slice (Ptr (Godoc.doc.Type A))) : Prop :=
  ∀ e ∈ s.toList, TypePtrWF e

instance {A : Type} (s : Slice (Ptr (Godoc.doc.Type A))) : Decidable (TypesWF s) :=
  inferInstanceAs (Decidable (∀ e ∈ s.toList, TypePtrWF e))

/-- A notes map whose sequences hold no nil pointer. -/
def NotesWF (notes : GoMap (Slice (Ptr doc.Note))) : Prop :=
  ∀ e ∈ notes.entries, NoNil e.2

instance (notes : GoMap (Slice (Ptr doc.Note))) : Decidable (NotesWF notes) :=
  inferInstanceAs (Decidable (∀ e ∈ notes.entries, NoNil e.2))

/-- The primary documentation section holds no nil pointer at any depth. -/
def doc.Package.WF {A : Type} (pdoc : Godoc.doc.Package A) : Prop :=
  NoNil pdoc.Consts ∧ TypesWF pdoc.Types ∧ NoNil pdoc.Vars ∧ NoNil pdoc.Funcs

instance {A : Type} (pdoc : Godoc.doc.Package A) : Decidable pdoc.WF :=
  inferInstanceAs
    (Decidable (NoNil pdoc.Consts ∧ TypesWF pdoc.Types ∧ NoNil pdoc.Vars ∧ NoNil pdoc.Funcs))

/-- A well-formed page: its sequences and notes contain no nil element, at any
depth. -/
def PageInfo.WF {A : Type} (info : PageInfo A) : Prop :=
  NoNil info.Examples ∧ NotesWF info.Notes ∧
    match info.PDoc with
    | none => True
    | some pdoc => pdoc.WF

instance {A : Type} (info : PageInfo A) : Decidable info.WF :=
  match h : info.PDoc with
  | none => decidable_of_iff (NoNil info.Examples ∧ NotesWF info.Notes)
      (by simp [PageInfo.WF, h])
  | some pdoc => decidable_of_iff (NoNil info.Examples ∧ NotesWF info.Notes ∧ pdoc.WF)
      (by simp [PageInfo.WF, h])

/-- The image of one note sequence (the inner loop of toDocsNotes on a sequence
without nil pointers). -/
def notesImage (v : Slice (Ptr doc.Note)) : Slice DocsNote :=
  Slice.mk (v.toList.map (fun e => (noteBody e).getD DocsNote.zero))

/-! ## The first sentence, as the spec words it

"The leading run of text up to and including the first sentence-terminating
period that is not part of an abbreviation/heuristic exclusion." -/

/-- The text `b` before a period is an initial: it ends in exactly one
upper-case letter (as `J` in `J. Smith`). -/
def IsInitial (b : List Char) : Bool :=
  match b.reverse with
  | [] => false
  | [c1] => c1.isUpper
  | c1 :: c2 :: _ => c1.isUpper && !c2.isUpper

/-- Cutting the text into `before` and `after` ends a sentence: `before` ends
with a period that does not follow an initial, and `after` starts with white
space. -/
def EndsSentence (before after : List Char) : Prop :=
  (∃ b, before = b ++ ['.'] ∧ IsInitial b = false) ∧
  (∃ c rest, after = c :: rest ∧ isBlankChar c = true)

/-- A character as the sentence scan remembers it: white space is read as a
space. -/
def nrm (c : Char) : Char := if isBlankChar c then ' ' else c

/-- The `k`-th character back from the end of the text read so far (given in
reverse), as the scan remembers it; the zero character when there is none. -/
def back (rb : List Char) (k : Nat) : Char :=
  match rb[k]? with
  | some c => nrm c
  | none => Char.ofNat 0

/-! ## A sample page

A small concrete input: a stub renderer over string-valued syntax nodes, and a
package with one const group, one var group, a type with two constructors and
one method, one top-level func, one example, one note and two directories. -/

/-- A stub renderer: a declaration renders as its text, an example as its
expression followed by its comments. -/
def sampleP : Presentation String :=
  ⟨fun _ a =>
    match a with
    | RenderArg.node n => n
    | RenderArg.commented c => c.Node ++ String.join c.Comments.toList⟩

/-- One const group declaring two names. -/
def sampleConsts : Slice (Ptr (doc.Value String)) :=
  Slice.mk [some ⟨"A and B are flags. Use them.", Slice.mk ["A", "B"], "const ( A = 1; B = 2 )"⟩]

/-- One var group whose `Names` is the nil slice. -/
def sampleVars : Slice (Ptr (doc.Value String)) :=
  Slice.mk [some ⟨"V is a variable.", Slice.null, "var V int"⟩]

/-- Two constructors of the sample type. -/
def sampleCtors : Slice (Ptr (doc.Func String)) :=
  Slice.mk [some ⟨"New makes a T.", "New", "func New() T"⟩,
            some ⟨"Open opens a T.", "Open", "func Open() T"⟩]

/-- One method of the sample type. -/
def sampleMethods : Slice (Ptr (doc.Func String)) :=
  Slice.mk [some ⟨"Close closes t.", "Close", "func (t T) Close()"⟩]

/-- A type with two constructors and one method; its consts and vars are nil. -/
def sampleType : doc.Type String :=
  ⟨"T is a type. It has methods.", "T", "type T struct{}", Slice.null, Slice.null,
    sampleCtors, sampleMethods⟩

/-- The types of the sample package. -/
def sampleTypes : Slice (Ptr (doc.Type String)) := Slice.mk [some sampleType]

/-- One top-level func. -/
def sampleFuncs : Slice (Ptr (doc.Func String)) :=
  Slice.mk [some ⟨"Run runs. Then it stops.", "Run", "func Run()"⟩]

/-- One example with one comment. -/
def sampleExamples : Slice (Ptr (doc.Example String)) :=
  Slice.mk [some ⟨"Run", "Run()", Slice.mk [" // Output: ok"]⟩]

/-- Two child directories. -/
def sampleDirs : DirList :=
  ⟨Slice.mk [⟨"a", "x/a", "Package a does A.", true⟩, ⟨"b", "x/b", "", false⟩]⟩

/-- One note under the marker `BUG`. -/
def sampleNotes : GoMap (Slice (Ptr doc.Note)) :=
  GoMap.mk ((∅ : AList (fun _ : String => Slice (Ptr doc.Note))).insert "BUG"
    (Slice.mk [some ⟨"u1", "d1"⟩]))

/-- The primary documentation section of the sample page. -/
def samplePDoc : doc.Package String :=
  ⟨"Package x does things. More text.", "example.com/x", sampleConsts, sampleTypes, sampleVars,
    sampleFuncs⟩

/-- The sample page, with its primary documentation section. -/
def sampleInfo : PageInfo String :=
  ⟨"/src/x", some samplePDoc, sampleExamples, sampleNotes, some sampleDirs, false⟩

/-- The sample page as a bare directory: no primary documentation section, but
examples, notes and directories. -/
def sampleBare : PageInfo String :=
  ⟨"/src/x", none, sampleExamples, sampleNotes, some sampleDirs, true⟩

/-- A primary documentation section without declarations: its four sequences
are nil. -/
def sampleEmptyPDoc : doc.Package String :=
  ⟨"", "", Slice.null, Slice.null, Slice.null, Slice.null⟩

/-- The sample bare directory given the empty primary documentation section. -/
def sampleEmptyPage : PageInfo String :=
  ⟨"/src/x", some sampleEmptyPDoc, sampleExamples, sampleNotes, some sampleDirs, true⟩

/-- A second stub renderer, different from `sampleP` on every node. -/
def sampleQ : Presentation String :=
  ⟨fun _ a =>
    match a with
    | RenderArg.node n => "Q:" ++ n
    | RenderArg.commented c => "Q:" ++ c.Node⟩

/-- Two examples, each with its own comment. -/
def sampleTwoExamples : Slice (Ptr (doc.Example String)) :=
  Slice.mk [some ⟨"Run", "Run()", Slice.mk [" // Output: ok"]⟩,
            some ⟨"Stop", "Stop()", Slice.mk [" // Output: done"]⟩]

/-- A directory list whose entry has a two-sentence synopsis. -/
def sampleLongDirs : DirList :=
  ⟨Slice.mk [⟨"a", "x/a", "Does it. And more.", true⟩]⟩

/-- A notes map with two markers. -/
def sampleTwoNotes : GoMap (Slice (Ptr doc.Note)) :=
  GoMap.mk (((∅ : AList (fun _ : String => Slice (Ptr doc.Note))).insert "BUG"
    (Slice.mk [some ⟨"u1", "d1"⟩])).insert "TODO" (Slice.mk [some ⟨"u2", "d2"⟩, some ⟨"u3", "d3"⟩]))

/-- A bare directory page carrying the two-marker notes map. -/
def sampleNotesPage : PageInfo String :=
  ⟨"/src/y", none, Slice.null, sampleTwoNotes, none, false⟩

/-! ## A paragraph on one line -/

/-- The words of a paragraph written on one line, separated by single spaces. -/
def joinWords : List (List Char) → List Char
  | [] => []
  | [w] => w
  | w :: w2 :: ws => w ++ ' ' :: joinWords (w2 :: ws)

/-- The blocks of a comment, as `ToText` sees them. -/
def blocksOf (d : String) : List Block := blocksAux none (splitLinesAux [] d.data)

/-- The words of a paragraph block. -/
def wordsOf (ls : List (List Char)) : List (List Char) := ls.flatMap (fieldsAux [])

/-! ## Theorems -/

/-! ### The assignment loop -/

theorem rangeAssign_append {α β : Type} (body : α → Option β) (g : α → β) :
    ∀ (xs : List α) (done rest : List β), (∀ x ∈ xs, body x = some (g x)) →
      xs.length ≤ rest.length →
      rangeAssign body xs done.length (Slice.mk (done ++ rest))
        = some (Slice.mk (done ++ xs.map g ++ rest.drop xs.length)) := by
  intro xs
  induction xs with
  | nil => intro done rest _ _; simp [rangeAssign]
  | cons x xs ih =>
    intro done rest hb hlen
    cases rest with
    | nil => simp at hlen
    | cons r rest =>
      have hx : body x = some (g x) := hb x (List.mem_cons_self _ _)
      have hset : Slice.set (Slice.mk (done ++ r :: rest)) done.length (g x)
          = some (Slice.mk ((done ++ [g x]) ++ rest)) := by
        simp [Slice.set, Slice.len, Slice.toList]
      have hrec := ih (done ++ [g x]) rest
        (fun y hy => hb y (List.mem_cons_of_mem _ hy))
        (by simpa using hlen)
      simp only [List.length_append, List.length_singleton] at hrec
      simp only [rangeAssign, hx, hset, hrec]
      simp

theorem rangeAssign_make {α β : Type} (body : α → Option β) (zero : β) (xs : Slice α)
    (h : ∀ x ∈ xs.toList, (body x).isSome = true) :
    rangeAssign body xs.toList 0 (Slice.make zero xs.len)
      = some (Slice.mk (xs.toList.map (fun x => (body x).getD zero))) := by
  have hb : ∀ x ∈ xs.toList, body x = some ((fun x => (body x).getD zero) x) := by
    intro x hx
    have := h x hx
    cases hbx : body x with
    | none => simp [hbx] at this
    | some y => simp [hbx]
  have := rangeAssign_append body (fun x => (body x).getD zero) xs.toList []
    (List.replicate xs.len zero) hb (by simp [Slice.len])
  simpa [Slice.make, Slice.len] using this

/-! ### The sequence mappers on well-formed input -/

theorem funcBody_isSome {A : Type} (p : Presentation A) (info : Ptr (PageInfo A))
    (e : Ptr (doc.Func A)) (h : e.isSome = true) : (funcBody p info e).isSome = true := by
  cases e with
  | none => simp at h
  | some f => simp [funcBody]

theorem valueBody_isSome {A : Type} (p : Presentation A) (info : Ptr (PageInfo A))
    (e : Ptr (doc.Value A)) (h : e.isSome = true) : (valueBody p info e).isSome = true := by
  cases e with
  | none => simp at h
  | some v => simp [valueBody]

theorem exampleBody_isSome {A : Type} (p : Presentation A) (info : Ptr (PageInfo A))
    (e : Ptr (doc.Example A)) (h : e.isSome = true) : (exampleBody p info e).isSome = true := by
  cases e with
  | none => simp at h
  | some eg => simp [exampleBody]

theorem noteBody_isSome (e : Ptr doc.Note) (h : e.isSome = true) :
    (noteBody e).isSome = true := by
  cases e with
  | none => simp at h
  | some n => simp [noteBody]

theorem toDocsFuncs_eq {A : Type} (p : Presentation A) (info : Ptr (PageInfo A))
    (funcs : Slice (Ptr (doc.Func A))) (h : NoNil funcs) :
    toDocsFuncs funcs p info
      = some (Slice.mk (funcs.toList.map (fun e => (funcBody p info e).getD DocsFunc.zero))) :=
  rangeAssign_make _ _ _ (fun e he => funcBody_isSome p info e (h e he))

theorem toDocsValues_eq {A : Type} (p : Presentation A) (info : Ptr (PageInfo A))
    (values : Slice (Ptr (doc.Value A))) (h : NoNil values) :
    toDocsValues values p info
      = some (Slice.mk (values.toList.map (fun e => (valueBody p info e).getD DocsValue.zero))) :=
  rangeAssign_make _ _ _ (fun e he => valueBody_isSome p info e (h e he))

theorem toDocsExamples_eq {A : Type} (p : Presentation A) (info : Ptr (PageInfo A))
    (examples : Slice (Ptr (doc.Example A))) (h : NoNil examples) :
    toDocsExamples examples p info
      = some (Slice.mk (examples.toList.map
          (fun e => (exampleBody p info e).getD DocsExample.zero))) :=
  rangeAssign_make _ _ _ (fun e he => exampleBody_isSome p info e (h e he))

theorem typeBody_isSome {A : Type} (p : Presentation A) (info : Ptr (PageInfo A))
    (e : Ptr (doc.Type A)) (h : TypePtrWF e) : (typeBody p info e).isSome = true := by
  cases e with
  | none => exact absurd h (by simp [TypePtrWF])
  | some t =>
    obtain ⟨hc, hv, hf, hm⟩ := h
    simp [typeBody, toDocsValues_eq p info _ hc, toDocsValues_eq p info _ hv,
      toDocsFuncs_eq p info _ hf, toDocsFuncs_eq p info _ hm]

theorem toDocsTypes_eq {A : Type} (p : Presentation A) (info : Ptr (PageInfo A))
    (types : Slice (Ptr (doc.Type A))) (h : TypesWF types) :
    toDocsTypes types p info
      = some (Slice.mk (types.toList.map (fun e => (typeBody p info e).getD DocsType.zero))) :=
  rangeAssign_make _ _ _ (fun e he => typeBody_isSome p info e (h e he))

theorem toDocsDirs_eq (dl : DirList) :
    toDocsDirs (some dl)
      = some (Slice.mk (dl.List.toList.map
          (fun d => ({ Name := d.Name, Path := d.Path, Summary := d.Synopsis,
                       HasPkg := d.HasPkg } : DocsDir)))) := by
  have := rangeAssign_make
    (fun d : DirEntry => some (DocsDir.mk d.Name d.Path d.Synopsis d.HasPkg))
    DocsDir.zero dl.List (by simp)
  simpa [toDocsDirs] using this

theorem typeBody_some {A : Type} (p : Presentation A) (info : Ptr (PageInfo A))
    (t : doc.Type A) (h : t.WF) :
    ∃ consts vars funcs methods,
      toDocsValues t.Consts p info = some consts ∧ toDocsValues t.Vars p info = some vars ∧
      toDocsFuncs t.Funcs p info = some funcs ∧ toDocsFuncs t.Methods p info = some methods ∧
      typeBody p info (some t) = some
        { Name := t.Name, Summary := summary t.Doc, Description := description t.Doc,
          Code := p.nodeFunc info (RenderArg.node t.Decl),
          Consts := consts, Vars := vars, Funcs := funcs, Methods := methods } := by
  obtain ⟨hc, hv, hf, hm⟩ := h
  refine ⟨_, _, _, _, toDocsValues_eq p info _ hc, toDocsValues_eq p info _ hv,
    toDocsFuncs_eq p info _ hf, toDocsFuncs_eq p info _ hm, ?_⟩
  simp [typeBody, toDocsValues_eq p info _ hc, toDocsValues_eq p info _ hv,
      toDocsFuncs_eq p info _ hf, toDocsFuncs_eq p info _ hm]

theorem index_of_map {α β : Type} (g : α → β) (xs : List α) (i : Nat) (x : α)
    (h : xs[i]? = some x) : (Slice.mk (xs.map g)).toList[i]? = some (g x) := by
  simp [Slice.toList, h]

/-! ### Claims -/

/-- C1: on a well-formed input (no nil element pointer), each sequence mapper
(toDocsValues, toDocsTypes, toDocsFuncs, toDocsExamples, toDocsDirs over
`dirs.List`) returns a sequence with exactly as many elements as its input, and
its i-th element is the image of the i-th input element: name(s) copied,
Summary = summary(Doc), Description = description(Doc), Code = the renderer on
(info, Decl); nothing is filtered, duplicated or reordered. -/
theorem C1_sequence_mappers_preserve_order {A : Type} (p : Presentation A)
    (info : Ptr (PageInfo A))
    (values : Slice (Ptr (doc.Value A))) (types : Slice (Ptr (doc.Type A)))
    (funcs : Slice (Ptr (doc.Func A))) (examples : Slice (Ptr (doc.Example A)))
    (dl : DirList)
    (hv : NoNil values) (ht : TypesWF types) (hf : NoNil funcs) (he : NoNil examples) :
    (∃ out, toDocsValues values p info = some out ∧ out.len = values.len ∧
      ∀ (i : Nat) (v : doc.Value A), values.toList[i]? = some (some v) →
        out.toList[i]? = some (DocsValue.mk v.Names (summary v.Doc) (description v.Doc)
          (p.nodeFunc info (RenderArg.node v.Decl)))) ∧
    (∃ out, toDocsTypes types p info = some out ∧ out.len = types.len ∧
      ∀ (i : Nat) (t : doc.Type A), types.toList[i]? = some (some t) →
        ∃ y, out.toList[i]? = some y ∧ y.Name = t.Name ∧ y.Summary = summary t.Doc ∧
          y.Description = description t.Doc ∧
          y.Code = p.nodeFunc info (RenderArg.node t.Decl)) ∧
    (∃ out, toDocsFuncs funcs p info = some out ∧ out.len = funcs.len ∧
      ∀ (i : Nat) (f : doc.Func A), funcs.toList[i]? = some (some f) →
        out.toList[i]? = some (DocsFunc.mk f.Name (summary f.Doc) (description f.Doc)
          (p.nodeFunc info (RenderArg.node f.Decl)))) ∧
    (∃ out, toDocsExamples examples p info = some out ∧ out.len = examples.len ∧
      ∀ (i : Nat) (eg : doc.Example A), examples.toList[i]? = some (some eg) →
        out.toList[i]? = some (DocsExample.mk eg.Name
          (p.nodeFunc info (RenderArg.commented ⟨eg.Code, eg.Comments⟩)))) ∧
    (∃ out, toDocsDirs (some dl) = some out ∧ out.len = dl.List.len ∧
      ∀ (i : Nat) (d : DirEntry), dl.List.toList[i]? = some d →
        out.toList[i]? = some (DocsDir.mk d.Name d.Path d.Synopsis d.HasPkg)) := by
  refine ⟨⟨_, toDocsValues_eq p info values hv, by simp [Slice.len, Slice.toList], ?_⟩,
    ⟨_, toDocsTypes_eq p info types ht, by simp [Slice.len, Slice.toList], ?_⟩,
    ⟨_, toDocsFuncs_eq p info funcs hf, by simp [Slice.len, Slice.toList], ?_⟩,
    ⟨_, toDocsExamples_eq p info examples he, by simp [Slice.len, Slice.toList], ?_⟩,
    ⟨_, toDocsDirs_eq dl, by simp [Slice.len, Slice.toList], ?_⟩⟩
  · intro i v h
    rw [index_of_map _ _ i _ h]
    simp [valueBody]
  · intro i t h
    have hwf : t.WF := ht (some t) (List.mem_iff_getElem?.mpr ⟨i, h⟩)
    obtain ⟨c, v, f, m, -, -, -, -, hb⟩ := typeBody_some p info t hwf
    refine ⟨_, index_of_map _ _ i _ h, ?_⟩
    simp [hb]
  · intro i f h
    rw [index_of_map _ _ i _ h]
    simp [funcBody]
  · intro i eg h
    rw [index_of_map _ _ i _ h]
    simp [exampleBody]
  · intro i d h
    rw [index_of_map _ _ i _ h]

/-- Witness for C1: the sample sequences are well formed and are mapped element
by element. -/
theorem C1_sequence_mappers_preserve_order_witness :
    (NoNil sampleConsts ∧ TypesWF sampleTypes ∧ NoNil sampleFuncs ∧ NoNil sampleExamples) ∧
    ((∃ out, toDocsValues sampleConsts sampleP (some sampleInfo) = some out ∧
        out.len = sampleConsts.len ∧
      ∀ (i : Nat) (v : doc.Value String), sampleConsts.toList[i]? = some (some v) →
        out.toList[i]? = some (DocsValue.mk v.Names (summary v.Doc) (description v.Doc)
          (sampleP.nodeFunc (some sampleInfo) (RenderArg.node v.Decl)))) ∧
    (∃ out, toDocsTypes sampleTypes sampleP (some sampleInfo) = some out ∧
        out.len = sampleTypes.len ∧
      ∀ (i : Nat) (t : doc.Type String), sampleTypes.toList[i]? = some (some t) →
        ∃ y, out.toList[i]? = some y ∧ y.Name = t.Name ∧ y.Summary = summary t.Doc ∧
          y.Description = description t.Doc ∧
          y.Code = sampleP.nodeFunc (some sampleInfo) (RenderArg.node t.Decl)) ∧
    (∃ out, toDocsFuncs sampleFuncs sampleP (some sampleInfo) = some out ∧
        out.len = sampleFuncs.len ∧
      ∀ (i : Nat) (f : doc.Func String), sampleFuncs.toList[i]? = some (some f) →
        out.toList[i]? = some (DocsFunc.mk f.Name (summary f.Doc) (description f.Doc)
          (sampleP.nodeFunc (some sampleInfo) (RenderArg.node f.Decl)))) ∧
    (∃ out, toDocsExamples sampleExamples sampleP (some sampleInfo) = some out ∧
        out.len = sampleExamples.len ∧
      ∀ (i : Nat) (eg : doc.Example String), sampleExamples.toList[i]? = some (some eg) →
        out.toList[i]? = some (DocsExample.mk eg.Name
          (sampleP.nodeFunc (some sampleInfo) (RenderArg.commented ⟨eg.Code, eg.Comments⟩)))) ∧
    (∃ out, toDocsDirs (some sampleDirs) = some out ∧ out.len = sampleDirs.List.len ∧
      ∀ (i : Nat) (d : DirEntry), sampleDirs.List.toList[i]? = some d →
        out.toList[i]? = some (DocsDir.mk d.Name d.Path d.Synopsis d.HasPkg))) :=
  ⟨⟨by decide, by decide, by decide, by decide⟩,
    C1_sequence_mappers_preserve_order sampleP (some sampleInfo) sampleConsts sampleTypes
      sampleFuncs sampleExamples sampleDirs (by decide) (by decide) (by decide) (by decide)⟩

/-- C2: every sequence mapper, given the nil slice or an empty slice (for
toDocsDirs: a nil `*DirList`, or a list whose `List` is nil or empty), returns a
present (non-nil) slice of length zero; toDocsNotes, given the nil map or an
empty map, returns a present (non-nil) map of length zero. -/
theorem C2_absent_input_gives_present_empty {A : Type} (p : Presentation A)
    (info : Ptr (PageInfo A)) :
    (∃ out, toDocsValues Slice.null p info = some out ∧ out.isNil = false ∧ out.len = 0) ∧
    (∃ out, toDocsValues (Slice.mk []) p info = some out ∧ out.isNil = false ∧ out.len = 0) ∧
    (∃ out, toDocsTypes Slice.null p info = some out ∧ out.isNil = false ∧ out.len = 0) ∧
    (∃ out, toDocsTypes (Slice.mk []) p info = some out ∧ out.isNil = false ∧ out.len = 0) ∧
    (∃ out, toDocsFuncs Slice.null p info = some out ∧ out.isNil = false ∧ out.len = 0) ∧
    (∃ out, toDocsFuncs (Slice.mk []) p info = some out ∧ out.isNil = false ∧ out.len = 0) ∧
    (∃ out, toDocsExamples Slice.null p info = some out ∧ out.isNil = false ∧ out.len = 0) ∧
    (∃ out, toDocsExamples (Slice.mk []) p info = some out ∧ out.isNil = false ∧ out.len = 0) ∧
    (∃ out, toDocsDirs none = some out ∧ out.isNil = false ∧ out.len = 0) ∧
    (∃ out, toDocsDirs (some ⟨Slice.null⟩) = some out ∧ out.isNil = false ∧ out.len = 0) ∧
    (∃ out, toDocsDirs (some ⟨Slice.mk []⟩) = some out ∧ out.isNil = false ∧ out.len = 0) ∧
    (∃ out, toDocsNotes GoMap.null = some out ∧ out.isNil = false ∧ out.len = 0) ∧
    (∃ out, toDocsNotes (GoMap.mk ∅) = some out ∧ out.isNil = false ∧ out.len = 0) :=
  ⟨⟨Slice.mk [], rfl, rfl, rfl⟩, ⟨Slice.mk [], rfl, rfl, rfl⟩,
   ⟨Slice.mk [], rfl, rfl, rfl⟩, ⟨Slice.mk [], rfl, rfl, rfl⟩,
   ⟨Slice.mk [], rfl, rfl, rfl⟩, ⟨Slice.mk [], rfl, rfl, rfl⟩,
   ⟨Slice.mk [], rfl, rfl, rfl⟩, ⟨Slice.mk [], rfl, rfl, rfl⟩,
   ⟨Slice.mk [], rfl, rfl, rfl⟩, ⟨Slice.mk [], rfl, rfl, rfl⟩, ⟨Slice.mk [], rfl, rfl, rfl⟩,
   ⟨GoMap.mk ∅, rfl, rfl, rfl⟩, ⟨GoMap.mk ∅, rfl, rfl, rfl⟩⟩

/-! ### The notes map -/

theorem rangeAssign_notes (v : Slice (Ptr doc.Note)) (h : NoNil v) :
    rangeAssign noteBody v.toList 0 (Slice.make DocsNote.zero v.len) = some (notesImage v) :=
  rangeAssign_make _ _ _ (fun e he => noteBody_isSome e (h e he))

theorem rangeNotes_eq :
    ∀ (es : List (Sigma (fun _ : String => Slice (Ptr doc.Note))))
      (m : AList (fun _ : String => Slice DocsNote)),
      (∀ e ∈ es, NoNil e.2) →
      rangeNotes es m = some (es.foldl (fun m e => m.insert e.1 (notesImage e.2)) m) := by
  intro es
  induction es with
  | nil => intro m _; rfl
  | cons e es ih =>
    intro m h
    obtain ⟨k, v⟩ := e
    have hv : NoNil v := h ⟨k, v⟩ (List.mem_cons_self _ _)
    simp only [rangeNotes, rangeAssign_notes v hv, List.foldl_cons]
    exact ih _ (fun e he => h e (List.mem_cons_of_mem _ he))

theorem lookup_foldl_insert (k : String) :
    ∀ (es : List (Sigma (fun _ : String => Slice (Ptr doc.Note))))
      (m : AList (fun _ : String => Slice DocsNote)), es.NodupKeys →
      (es.foldl (fun m e => m.insert e.1 (notesImage e.2)) m).lookup k
        = match es.dlookup k with
          | some v => some (notesImage v)
          | none => m.lookup k := by
  intro es
  induction es with
  | nil => intro m _; rfl
  | cons e es ih =>
    intro m hnd
    obtain ⟨k1, v⟩ := e
    rw [List.nodupKeys_cons] at hnd
    rw [List.foldl_cons, ih _ hnd.2]
    by_cases hk : k1 = k
    · subst hk
      have hnone : es.dlookup k1 = none := List.dlookup_eq_none.mpr hnd.1
      simp [hnone, List.dlookup_cons_eq, AList.lookup_insert]
    · have hk2 : k ≠ k1 := fun h => hk h.symm
      rw [List.dlookup_cons_ne _ _ hk2]
      cases es.dlookup k with
      | some w => rfl
      | none => simp [AList.lookup_insert_ne hk2]

theorem toDocsNotes_eq (notes : GoMap (Slice (Ptr doc.Note))) (h : NotesWF notes) :
    toDocsNotes notes = some (GoMap.mk
      (notes.entries.foldl (fun m e => m.insert e.1 (notesImage e.2)) ∅)) := by
  simp [toDocsNotes, rangeNotes_eq notes.entries ∅ h]

theorem toDocsNotes_lookup (notes : GoMap (Slice (Ptr doc.Note))) (k : String) :
    (GoMap.mk (notes.entries.foldl (fun m e => m.insert e.1 (notesImage e.2)) ∅)).lookup k
      = (notes.lookup k).map notesImage := by
  cases notes with
  | null => rfl
  | mk t =>
    simp only [GoMap.lookup, GoMap.entries]
    rw [lookup_foldl_insert k t.entries ∅ t.nodupKeys]
    show _ = Option.map notesImage (t.entries.dlookup k)
    cases t.entries.dlookup k <;> simp

/-- C5: on a notes map without nil note pointers, toDocsNotes returns a map
with exactly the same key set (a key is present in the output iff it is present
in the input, also when its sequence is empty), and for every key the output
sequence has the length and order of the input sequence, each element carrying
the note's UID and, as Description, the note's Body unchanged. -/
theorem C5_notes_same_keys_same_order (notes : GoMap (Slice (Ptr doc.Note)))
    (h : NotesWF notes) :
    ∃ out, toDocsNotes notes = some out ∧
      (∀ k : String, (out.lookup k).isSome = (notes.lookup k).isSome) ∧
      (∀ (k : String) (v : Slice (Ptr doc.Note)), notes.lookup k = some v →
        ∃ w, out.lookup k = some w ∧ w.len = v.len ∧
          ∀ (i : Nat) (n : doc.Note), v.toList[i]? = some (some n) →
            w.toList[i]? = some (DocsNote.mk n.UID n.Body)) := by
  refine ⟨_, toDocsNotes_eq notes h, ?_, ?_⟩
  · intro k
    rw [toDocsNotes_lookup]
    cases notes.lookup k <;> rfl
  · intro k v hk
    refine ⟨notesImage v, ?_, ?_, ?_⟩
    · rw [toDocsNotes_lookup, hk]; rfl
    · simp [notesImage, Slice.len, Slice.toList]
    · intro i n hi
      rw [notesImage, index_of_map _ _ i _ hi]
      simp [noteBody]

/-- Witness for C5: the sample notes map, one note under the marker BUG. -/
theorem C5_notes_same_keys_same_order_witness :
    NotesWF sampleNotes ∧
    ∃ out, toDocsNotes sampleNotes = some out ∧
      (∀ k : String, (out.lookup k).isSome = (sampleNotes.lookup k).isSome) ∧
      (∀ (k : String) (v : Slice (Ptr doc.Note)), sampleNotes.lookup k = some v →
        ∃ w, out.lookup k = some w ∧ w.len = v.len ∧
          ∀ (i : Nat) (n : doc.Note), v.toList[i]? = some (some n) →
            w.toList[i]? = some (DocsNote.mk n.UID n.Body)) :=
  ⟨by decide, C5_notes_same_keys_same_order sampleNotes (by decide)⟩

/-! ### The package mapper -/

theorem toDocsDirs_total (dirs : Ptr DirList) :
    ∃ out, toDocsDirs dirs = some out ∧ out.isNil = false := by
  cases dirs with
  | none => exact ⟨Slice.mk [], rfl, rfl⟩
  | some dl => exact ⟨_, toDocsDirs_eq dl, rfl⟩

theorem toDocfx_absent {A : Type} (p : Presentation A) (info : PageInfo A)
    (hp : info.PDoc = none) (hn : NotesWF info.Notes) :
    ∃ notes dirs, toDocsNotes info.Notes = some notes ∧ toDocsDirs info.Dirs = some dirs ∧
      toDocfx p (some info) = some
        { DocsPackage.zero with
          IsMain := info.IsMain, Dir := info.Dirname, Notes := notes, Dirs := dirs } := by
  obtain ⟨dirs, hd, -⟩ := toDocsDirs_total info.Dirs
  refine ⟨_, dirs, toDocsNotes_eq info.Notes hn, hd, ?_⟩
  simp [toDocfx, toDocsNotes_eq info.Notes hn, hd, hp]

theorem toDocfx_present {A : Type} (p : Presentation A) (info : PageInfo A)
    (pdoc : doc.Package A) (hp : info.PDoc = some pdoc) (hw : info.WF) :
    ∃ notes dirs examples consts vars funcs types,
      toDocsNotes info.Notes = some notes ∧ toDocsDirs info.Dirs = some dirs ∧
      toDocsExamples info.Examples p (some info) = some examples ∧
      toDocsValues pdoc.Consts p (some info) = some consts ∧
      toDocsValues pdoc.Vars p (some info) = some vars ∧
      toDocsFuncs pdoc.Funcs p (some info) = some funcs ∧
      toDocsTypes pdoc.Types p (some info) = some types ∧
      toDocfx p (some info) = some
        { IsMain := info.IsMain, Summary := summary pdoc.Doc,
          Description := description pdoc.Doc, ImportPath := pdoc.ImportPath,
          Dir := info.Dirname, Consts := consts, Types := types, Vars := vars, Funcs := funcs,
          Notes := notes, Examples := examples, Dirs := dirs } := by
  obtain ⟨he, hn, hpd⟩ := hw
  rw [hp] at hpd
  obtain ⟨hc, ht, hv, hf⟩ := hpd
  obtain ⟨dirs, hd, -⟩ := toDocsDirs_total info.Dirs
  refine ⟨_, dirs, _, _, _, _, _, toDocsNotes_eq info.Notes hn, hd,
    toDocsExamples_eq p _ _ he, toDocsValues_eq p _ _ hc, toDocsValues_eq p _ _ hv,
    toDocsFuncs_eq p _ _ hf, toDocsTypes_eq p _ _ ht, ?_⟩
  simp [toDocfx, toDocsNotes_eq info.Notes hn, hd, hp, toDocsExamples_eq p _ _ he,
    toDocsValues_eq p _ _ hc, toDocsValues_eq p _ _ hv, toDocsFuncs_eq p _ _ hf,
    toDocsTypes_eq p _ _ ht, DocsPackage.zero]

theorem values_index_back {A : Type} (p : Presentation A) (info : Ptr (PageInfo A))
    (values : Slice (Ptr (doc.Value A))) (h : NoNil values) (out : Slice DocsValue)
    (ho : toDocsValues values p info = some out) (i : Nat) (y : DocsValue)
    (hy : out.toList[i]? = some y) :
    ∃ v, values.toList[i]? = some (some v) ∧
      y = DocsValue.mk v.Names (summary v.Doc) (description v.Doc)
        (p.nodeFunc info (RenderArg.node v.Decl)) := by
  rw [toDocsValues_eq p info values h] at ho
  cases ho
  simp only [Slice.toList, List.getElem?_map, Option.map_eq_some'] at hy
  obtain ⟨e, he, hey⟩ := hy
  have hs := h e (List.mem_iff_getElem?.mpr ⟨i, he⟩)
  cases e with
  | none => simp at hs
  | some v => exact ⟨v, he, by simpa [valueBody] using hey.symm⟩

theorem types_index_back {A : Type} (p : Presentation A) (info : Ptr (PageInfo A))
    (types : Slice (Ptr (doc.Type A))) (h : TypesWF types) (out : Slice DocsType)
    (ho : toDocsTypes types p info = some out) (i : Nat) (y : DocsType)
    (hy : out.toList[i]? = some y) :
    ∃ t, types.toList[i]? = some (some t) ∧ t.WF ∧ typeBody p info (some t) = some y := by
  rw [toDocsTypes_eq p info types h] at ho
  cases ho
  simp only [Slice.toList, List.getElem?_map, Option.map_eq_some'] at hy
  obtain ⟨e, he, hey⟩ := hy
  have hs := h e (List.mem_iff_getElem?.mpr ⟨i, he⟩)
  cases e with
  | none => exact absurd hs (by simp [TypePtrWF])
  | some t =>
    obtain ⟨c, v, f, m, -, -, -, -, hb⟩ := typeBody_some p info t hs
    refine ⟨t, he, hs, ?_⟩
    rw [hb] at hey ⊢
    simpa using hey

/-- C3: the code at the failing input. For the sample bare directory (primary
documentation section absent) toDocfx returns a package whose Summary,
Description and ImportPath are empty, but whose Consts, Vars, Funcs and Types
are nil slices, not present empty sequences. On the same call the sibling fields
Notes and Dirs are present; toDocsDirs gives a present empty sequence for an
absent directory list; and the same page with a primary documentation section
whose four sequences are nil gets present empty Consts, Vars, Funcs and Types. -/
theorem C3_absent_pdoc_leaves_nil_sequences :
    (∃ pkg, toDocfx sampleP (some sampleBare) = some pkg ∧
      pkg.Summary = "" ∧ pkg.Description = "" ∧ pkg.ImportPath = "" ∧
      (pkg.Consts.isNil = true ∧ pkg.Consts.len = 0) ∧
      (pkg.Vars.isNil = true ∧ pkg.Vars.len = 0) ∧
      (pkg.Funcs.isNil = true ∧ pkg.Funcs.len = 0) ∧
      (pkg.Types.isNil = true ∧ pkg.Types.len = 0) ∧
      pkg.Notes.isNil = false ∧ pkg.Dirs.isNil = false) ∧
    (∃ out, toDocsDirs none = some out ∧ out.isNil = false ∧ out.len = 0) ∧
    (∃ pkg, toDocfx sampleP (some sampleEmptyPage) = some pkg ∧
      (pkg.Consts.isNil = false ∧ pkg.Consts.len = 0) ∧
      (pkg.Vars.isNil = false ∧ pkg.Vars.len = 0) ∧
      (pkg.Funcs.isNil = false ∧ pkg.Funcs.len = 0) ∧
      (pkg.Types.isNil = false ∧ pkg.Types.len = 0)) := by
  refine ⟨?_, ⟨Slice.mk [], rfl, rfl, rfl⟩, ?_⟩
  · obtain ⟨notes, dirs, hn, hd, hx⟩ := toDocfx_absent sampleP sampleBare rfl (by decide)
    obtain ⟨dirs2, hd2, hdn⟩ := toDocsDirs_total sampleBare.Dirs
    have hdd : dirs = dirs2 := Option.some.inj (hd.symm.trans hd2)
    have hnn : notes.isNil = false := by
      rw [toDocsNotes_eq sampleBare.Notes (by decide)] at hn
      cases hn
      rfl
    exact ⟨_, hx, rfl, rfl, rfl, ⟨rfl, rfl⟩, ⟨rfl, rfl⟩, ⟨rfl, rfl⟩, ⟨rfl, rfl⟩, hnn,
      hdd ▸ hdn⟩
  · obtain ⟨notes, dirs, examples, consts, vars, funcs, types, -, -, -, hc, hv, hf, ht, hx⟩ :=
      toDocfx_present sampleP sampleEmptyPage sampleEmptyPDoc rfl (by decide)
    rw [toDocsValues_eq sampleP _ _ (by decide)] at hc hv
    rw [toDocsFuncs_eq sampleP _ _ (by decide)] at hf
    rw [toDocsTypes_eq sampleP _ _ (by decide)] at ht
    cases hc; cases hv; cases hf; cases ht
    exact ⟨_, hx, ⟨rfl, rfl⟩, ⟨rfl, rfl⟩, ⟨rfl, rfl⟩, ⟨rfl, rfl⟩⟩

/-- C4, as stated, fails on the sample page: its var group has a nil `Names`,
and no package returned for it has every Value's Names present. -/
theorem C4_counterexample :
    ¬ ∃ pkg, toDocfx sampleP (some sampleInfo) = some pkg ∧
      ∀ y ∈ pkg.Consts.toList ++ pkg.Vars.toList, y.Names.isNil = false := by
  rintro ⟨pkg, h, hall⟩
  obtain ⟨notes, dirs, examples, consts, vars, funcs, types, -, -, -, -, hv, -, -, hx⟩ :=
    toDocfx_present sampleP sampleInfo samplePDoc rfl (by decide)
  rw [hx] at h
  cases h
  rw [toDocsValues_eq sampleP _ _ (by decide)] at hv
  cases hv
  have := hall
    (DocsValue.mk Slice.null (summary "V is a variable.") (description "V is a variable.")
      "var V int")
    (by simp [Slice.toList, samplePDoc, sampleVars, valueBody, sampleP])
  simp [Slice.isNil] at this

/-- C4, amended: for a well-formed page whose primary documentation section is
present, every sequence built by the mapper is a present (non-nil) sequence,
empty when it has no elements: the package's Consts, Vars, Types, Funcs,
Examples and Dirs, and each Type's Consts, Vars, Funcs and Methods. Each Value's
Names is the Names of the input value at the same position, unchanged (so it is
nil exactly when the input's Names is nil). -/
theorem C4_sequences_present {A : Type} (p : Presentation A) (info : PageInfo A)
    (pdoc : doc.Package A) (hp : info.PDoc = some pdoc) (hw : info.WF) :
    ∃ pkg, toDocfx p (some info) = some pkg ∧
      pkg.Consts.isNil = false ∧ pkg.Vars.isNil = false ∧ pkg.Types.isNil = false ∧
      pkg.Funcs.isNil = false ∧ pkg.Examples.isNil = false ∧ pkg.Dirs.isNil = false ∧
      (∀ ty ∈ pkg.Types.toList, ty.Consts.isNil = false ∧ ty.Vars.isNil = false ∧
        ty.Funcs.isNil = false ∧ ty.Methods.isNil = false) ∧
      (∀ (i : Nat) (y : DocsValue), pkg.Consts.toList[i]? = some y →
        ∃ v, pdoc.Consts.toList[i]? = some (some v) ∧ y.Names = v.Names) ∧
      (∀ (i : Nat) (y : DocsValue), pkg.Vars.toList[i]? = some y →
        ∃ v, pdoc.Vars.toList[i]? = some (some v) ∧ y.Names = v.Names) ∧
      (∀ (i : Nat) (ty : DocsType), pkg.Types.toList[i]? = some ty →
        ∃ t, pdoc.Types.toList[i]? = some (some t) ∧
          (∀ (j : Nat) (y : DocsValue), ty.Consts.toList[j]? = some y →
            ∃ v, t.Consts.toList[j]? = some (some v) ∧ y.Names = v.Names) ∧
          (∀ (j : Nat) (y : DocsValue), ty.Vars.toList[j]? = some y →
            ∃ v, t.Vars.toList[j]? = some (some v) ∧ y.Names = v.Names)) := by
  obtain ⟨notes, dirs, examples, consts, vars, funcs, types, -, hd, he, hc, hv, hf, ht, hx⟩ :=
    toDocfx_present p info pdoc hp hw
  have hw2 := hw
  obtain ⟨hwe, -, hpd⟩ := hw2
  rw [hp] at hpd
  obtain ⟨hwc, hwt, hwv, hwf⟩ := hpd
  obtain ⟨dirs2, hd2, hdn⟩ := toDocsDirs_total info.Dirs
  have hdd : dirs = dirs2 := Option.some.inj (hd.symm.trans hd2)
  have hcn : consts.isNil = false := by
    rw [toDocsValues_eq p _ _ hwc] at hc; cases hc; rfl
  have hvn : vars.isNil = false := by
    rw [toDocsValues_eq p _ _ hwv] at hv; cases hv; rfl
  have htn : types.isNil = false := by
    rw [toDocsTypes_eq p _ _ hwt] at ht; cases ht; rfl
  have hfn : funcs.isNil = false := by
    rw [toDocsFuncs_eq p _ _ hwf] at hf; cases hf; rfl
  have hen : examples.isNil = false := by
    rw [toDocsExamples_eq p _ _ hwe] at he; cases he; rfl
  refine ⟨_, hx, hcn, hvn, htn, hfn, hen, hdd ▸ hdn, ?_, ?_, ?_, ?_⟩
  · intro ty hty
    obtain ⟨i, hi⟩ := List.mem_iff_getElem?.mp hty
    obtain ⟨t, -, htw, hb⟩ := types_index_back p _ _ hwt types ht i ty hi
    obtain ⟨c, v, f, m, h1, h2, h3, h4, hb2⟩ := typeBody_some p (some info) t htw
    rw [hb2] at hb
    cases hb
    rw [toDocsValues_eq p _ _ htw.1] at h1
    rw [toDocsValues_eq p _ _ htw.2.1] at h2
    rw [toDocsFuncs_eq p _ _ htw.2.2.1] at h3
    rw [toDocsFuncs_eq p _ _ htw.2.2.2] at h4
    cases h1; cases h2; cases h3; cases h4
    exact ⟨rfl, rfl, rfl, rfl⟩
  · intro i y hy
    obtain ⟨v, h1, h2⟩ := values_index_back p _ _ hwc consts hc i y hy
    exact ⟨v, h1, by rw [h2]⟩
  · intro i y hy
    obtain ⟨v, h1, h2⟩ := values_index_back p _ _ hwv vars hv i y hy
    exact ⟨v, h1, by rw [h2]⟩
  · intro i ty hi
    obtain ⟨t, hti, htw, hb⟩ := types_index_back p _ _ hwt types ht i ty hi
    obtain ⟨c, v, f, m, h1, h2, -, -, hb2⟩ := typeBody_some p (some info) t htw
    rw [hb2] at hb
    cases hb
    refine ⟨t, hti, ?_, ?_⟩
    · intro j y hy
      obtain ⟨w, h3, h4⟩ := values_index_back p _ _ htw.1 c h1 j y hy
      exact ⟨w, h3, by rw [h4]⟩
    · intro j y hy
      obtain ⟨w, h3, h4⟩ := values_index_back p _ _ htw.2.1 v h2 j y hy
      exact ⟨w, h3, by rw [h4]⟩

/-- Witness for C4, amended: the sample page. -/
theorem C4_sequences_present_witness :
    (sampleInfo.PDoc = some samplePDoc ∧ sampleInfo.WF) ∧
    ∃ pkg, toDocfx sampleP (some sampleInfo) = some pkg ∧
      pkg.Consts.isNil = false ∧ pkg.Vars.isNil = false ∧ pkg.Types.isNil = false ∧
      pkg.Funcs.isNil = false ∧ pkg.Examples.isNil = false ∧ pkg.Dirs.isNil = false ∧
      (∀ ty ∈ pkg.Types.toList, ty.Consts.isNil = false ∧ ty.Vars.isNil = false ∧
        ty.Funcs.isNil = false ∧ ty.Methods.isNil = false) ∧
      (∀ (i : Nat) (y : DocsValue), pkg.Consts.toList[i]? = some y →
        ∃ v, samplePDoc.Consts.toList[i]? = some (some v) ∧ y.Names = v.Names) ∧
      (∀ (i : Nat) (y : DocsValue), pkg.Vars.toList[i]? = some y →
        ∃ v, samplePDoc.Vars.toList[i]? = some (some v) ∧ y.Names = v.Names) ∧
      (∀ (i : Nat) (ty : DocsType), pkg.Types.toList[i]? = some ty →
        ∃ t, samplePDoc.Types.toList[i]? = some (some t) ∧
          (∀ (j : Nat) (y : DocsValue), ty.Consts.toList[j]? = some y →
            ∃ v, t.Consts.toList[j]? = some (some v) ∧ y.Names = v.Names) ∧
          (∀ (j : Nat) (y : DocsValue), ty.Vars.toList[j]? = some y →
            ∃ v, t.Vars.toList[j]? = some (some v) ∧ y.Names = v.Names)) :=
  ⟨⟨rfl, by decide⟩, C4_sequences_present sampleP sampleInfo samplePDoc rfl (by decide)⟩

/-- C6: for every well-formed input Type t (at any position of the sequence
given to toDocsTypes), the output Type at that position has Consts, Vars, Funcs
and Methods equal to the mappings of t.Consts, t.Vars, t.Funcs and t.Methods
respectively, each made with the context passed to toDocsTypes; in particular
its Funcs has len(t.Funcs) elements and its Methods has len(t.Methods)
elements: the two are neither merged nor swapped. -/
theorem C6_type_nested_sequences {A : Type} (p : Presentation A) (info : Ptr (PageInfo A))
    (types : Slice (Ptr (doc.Type A))) (ht : TypesWF types) :
    ∃ out, toDocsTypes types p info = some out ∧
      ∀ (i : Nat) (t : doc.Type A), types.toList[i]? = some (some t) →
        ∃ y, out.toList[i]? = some y ∧
          toDocsValues t.Consts p info = some y.Consts ∧
          toDocsValues t.Vars p info = some y.Vars ∧
          toDocsFuncs t.Funcs p info = some y.Funcs ∧
          toDocsFuncs t.Methods p info = some y.Methods ∧
          y.Funcs.len = t.Funcs.len ∧ y.Methods.len = t.Methods.len := by
  refine ⟨_, toDocsTypes_eq p info types ht, ?_⟩
  intro i t h
  have hwf : t.WF := ht (some t) (List.mem_iff_getElem?.mpr ⟨i, h⟩)
  obtain ⟨c, v, f, m, h1, h2, h3, h4, hb⟩ := typeBody_some p info t hwf
  refine ⟨_, index_of_map _ _ i _ h, ?_⟩
  have hfl : f.len = t.Funcs.len := by
    rw [toDocsFuncs_eq p info _ hwf.2.2.1] at h3; cases h3
    simp [Slice.len, Slice.toList]
  have hml : m.len = t.Methods.len := by
    rw [toDocsFuncs_eq p info _ hwf.2.2.2] at h4; cases h4
    simp [Slice.len, Slice.toList]
  simp only [hb, Option.getD_some]
  exact ⟨h1, h2, h3, h4, hfl, hml⟩

/-- Witness for C6: the sample type has two constructor funcs and one method. -/
theorem C6_type_nested_sequences_witness :
    TypesWF sampleTypes ∧
    ∃ out, toDocsTypes sampleTypes sampleP none = some out ∧
      ∀ (i : Nat) (t : doc.Type String), sampleTypes.toList[i]? = some (some t) →
        ∃ y, out.toList[i]? = some y ∧
          toDocsValues t.Consts sampleP none = some y.Consts ∧
          toDocsValues t.Vars sampleP none = some y.Vars ∧
          toDocsFuncs t.Funcs sampleP none = some y.Funcs ∧
          toDocsFuncs t.Methods sampleP none = some y.Methods ∧
          y.Funcs.len = t.Funcs.len ∧ y.Methods.len = t.Methods.len :=
  ⟨by decide, C6_type_nested_sequences sampleP none sampleTypes (by decide)⟩

/-- C7: for every well-formed page, with or without a primary documentation
section, toDocfx returns a package with IsMain = info.IsMain, Dir =
info.Dirname, Notes = toDocsNotes(info.Notes) and Dirs = toDocsDirs(info.Dirs).
These four fields depend neither on PDoc, nor on the examples, nor on the
renderer: a second well-formed page that agrees on IsMain, Dirname, Notes and
Dirs, mapped with any renderer, gets the same four fields. -/
theorem C7_frame_fields {A : Type} (p : Presentation A) (info : PageInfo A) (hw : info.WF) :
    ∃ pkg, toDocfx p (some info) = some pkg ∧
      pkg.IsMain = info.IsMain ∧ pkg.Dir = info.Dirname ∧
      toDocsNotes info.Notes = some pkg.Notes ∧ toDocsDirs info.Dirs = some pkg.Dirs ∧
      ∀ (q : Presentation A) (pdoc2 : Ptr (doc.Package A))
        (examples2 : Slice (Ptr (doc.Example A))),
        (PageInfo.mk info.Dirname pdoc2 examples2 info.Notes info.Dirs info.IsMain).WF →
        ∃ pkg2, toDocfx q
            (some (PageInfo.mk info.Dirname pdoc2 examples2 info.Notes info.Dirs info.IsMain))
              = some pkg2 ∧
          pkg2.IsMain = pkg.IsMain ∧ pkg2.Dir = pkg.Dir ∧ pkg2.Notes = pkg.Notes ∧
          pkg2.Dirs = pkg.Dirs := by
  have key : ∀ (q : Presentation A) (i2 : PageInfo A), i2.WF →
      ∃ pkg, toDocfx q (some i2) = some pkg ∧ pkg.IsMain = i2.IsMain ∧ pkg.Dir = i2.Dirname ∧
        toDocsNotes i2.Notes = some pkg.Notes ∧ toDocsDirs i2.Dirs = some pkg.Dirs := by
    intro q i2 hw2
    cases hp : i2.PDoc with
    | none =>
      obtain ⟨notes, dirs, hn, hd, hx⟩ := toDocfx_absent q i2 hp hw2.2.1
      exact ⟨_, hx, rfl, rfl, hn, hd⟩
    | some pdoc =>
      obtain ⟨notes, dirs, ex, c, v, f, t, hn, hd, -, -, -, -, -, hx⟩ :=
        toDocfx_present q i2 pdoc hp hw2
      exact ⟨_, hx, rfl, rfl, hn, hd⟩
  obtain ⟨pkg, hx, h1, h2, h3, h4⟩ := key p info hw
  refine ⟨pkg, hx, h1, h2, h3, h4, ?_⟩
  intro q pdoc2 examples2 hw2
  obtain ⟨pkg2, hx2, g1, g2, g3, g4⟩ := key q _ hw2
  refine ⟨pkg2, hx2, g1.trans h1.symm, g2.trans h2.symm, ?_, ?_⟩
  · exact Option.some.inj (g3.symm.trans h3)
  · exact Option.some.inj (g4.symm.trans h4)

/-- Witness for C7: the sample bare directory (no primary documentation). -/
theorem C7_frame_fields_witness :
    sampleBare.WF ∧
    ∃ pkg, toDocfx sampleP (some sampleBare) = some pkg ∧
      pkg.IsMain = sampleBare.IsMain ∧ pkg.Dir = sampleBare.Dirname ∧
      toDocsNotes sampleBare.Notes = some pkg.Notes ∧
      toDocsDirs sampleBare.Dirs = some pkg.Dirs ∧
      ∀ (q : Presentation String) (pdoc2 : Ptr (doc.Package String))
        (examples2 : Slice (Ptr (doc.Example String))),
        (PageInfo.mk sampleBare.Dirname pdoc2 examples2 sampleBare.Notes sampleBare.Dirs
          sampleBare.IsMain).WF →
        ∃ pkg2, toDocfx q
            (some (PageInfo.mk sampleBare.Dirname pdoc2 examples2 sampleBare.Notes
              sampleBare.Dirs sampleBare.IsMain)) = some pkg2 ∧
          pkg2.IsMain = pkg.IsMain ∧ pkg2.Dir = pkg.Dir ∧ pkg2.Notes = pkg.Notes ∧
          pkg2.Dirs = pkg.Dirs :=
  ⟨by decide, C7_frame_fields sampleP sampleBare (by decide)⟩

/-- C8: for every well-formed page whose primary documentation section is
present, toDocfx returns a package with ImportPath = PDoc.ImportPath, Summary =
summary(PDoc.Doc), Description = description(PDoc.Doc), Examples =
toDocsExamples(info.Examples), Consts = toDocsValues(PDoc.Consts), Vars =
toDocsValues(PDoc.Vars), Funcs = toDocsFuncs(PDoc.Funcs) and Types =
toDocsTypes(PDoc.Types), every mapper being called with the same renderer and
the same page info. -/
theorem C8_present_pdoc_fields {A : Type} (p : Presentation A) (info : PageInfo A)
    (pdoc : doc.Package A) (hp : info.PDoc = some pdoc) (hw : info.WF) :
    ∃ pkg, toDocfx p (some info) = some pkg ∧
      pkg.ImportPath = pdoc.ImportPath ∧ pkg.Summary = summary pdoc.Doc ∧
      pkg.Description = description pdoc.Doc ∧
      toDocsExamples info.Examples p (some info) = some pkg.Examples ∧
      toDocsValues pdoc.Consts p (some info) = some pkg.Consts ∧
      toDocsValues pdoc.Vars p (some info) = some pkg.Vars ∧
      toDocsFuncs pdoc.Funcs p (some info) = some pkg.Funcs ∧
      toDocsTypes pdoc.Types p (some info) = some pkg.Types := by
  obtain ⟨notes, dirs, examples, consts, vars, funcs, types, -, -, he, hc, hv, hf, ht, hx⟩ :=
    toDocfx_present p info pdoc hp hw
  exact ⟨_, hx, rfl, rfl, rfl, he, hc, hv, hf, ht⟩

/-- Witness for C8: the sample page. -/
theorem C8_present_pdoc_fields_witness :
    (sampleInfo.PDoc = some samplePDoc ∧ sampleInfo.WF) ∧
    ∃ pkg, toDocfx sampleP (some sampleInfo) = some pkg ∧
      pkg.ImportPath = samplePDoc.ImportPath ∧ pkg.Summary = summary samplePDoc.Doc ∧
      pkg.Description = description samplePDoc.Doc ∧
      toDocsExamples sampleInfo.Examples sampleP (some sampleInfo) = some pkg.Examples ∧
      toDocsValues samplePDoc.Consts sampleP (some sampleInfo) = some pkg.Consts ∧
      toDocsValues samplePDoc.Vars sampleP (some sampleInfo) = some pkg.Vars ∧
      toDocsFuncs samplePDoc.Funcs sampleP (some sampleInfo) = some pkg.Funcs ∧
      toDocsTypes samplePDoc.Types sampleP (some sampleInfo) = some pkg.Types :=
  ⟨⟨rfl, by decide⟩, C8_present_pdoc_fields sampleP sampleInfo samplePDoc rfl (by decide)⟩

/-! ### Text helpers -/

theorem isBlankChar_iff (c : Char) :
    isBlankChar c = true ↔ c = ' ' ∨ c = '\n' ∨ c = '\r' ∨ c = '\t' := by
  simp [isBlankChar, or_assoc]

theorem nrm_eq_space (c : Char) : nrm c = ' ' ↔ isBlankChar c = true := by
  unfold nrm
  cases h : isBlankChar c with
  | true => simp
  | false =>
    simp only [Bool.false_eq_true, if_false, iff_false]
    intro hc
    rw [hc] at h
    exact absurd h (by decide)

theorem nrm_eq_dot (c : Char) : nrm c = '.' ↔ c = '.' := by
  unfold nrm
  cases h : isBlankChar c with
  | true =>
    simp only [if_true]
    constructor
    · intro hc; exact absurd hc (by decide)
    · intro hc; rw [hc] at h; exact absurd h (by decide)
  | false => simp

theorem nrm_isUpper (c : Char) : (nrm c).isUpper = c.isUpper := by
  unfold nrm
  cases h : isBlankChar c with
  | true =>
    simp only [if_true]
    rcases (isBlankChar_iff c).mp h with rfl | rfl | rfl | rfl <;> decide
  | false => simp

theorem back_cons_zero (c : Char) (rb : List Char) : back (c :: rb) 0 = nrm c := by
  simp [back]

theorem back_cons_succ (c : Char) (rb : List Char) (k : Nat) :
    back (c :: rb) (k + 1) = back rb k := by
  simp [back]

theorem back_nil (k : Nat) : back [] k = Char.ofNat 0 := by
  simp [back]

theorem zero_char_facts : (Char.ofNat 0 == '.') = false ∧ (Char.ofNat 0).isUpper = false := by
  decide

theorem initial_iff (b : List Char) :
    IsInitial b = false ↔
      (!(back b.reverse 0).isUpper || (back b.reverse 1).isUpper) = true := by
  unfold IsInitial
  cases hb : b.reverse with
  | nil => simp [back_nil, zero_char_facts.2]
  | cons c1 r =>
    cases r with
    | nil =>
      simp [back_cons_zero, back_cons_succ, back_nil, zero_char_facts.2, nrm_isUpper]
    | cons c2 r2 =>
      simp only [back_cons_zero, back_cons_succ, nrm_isUpper]
      cases c1.isUpper <;> cases c2.isUpper <;> simp

theorem endsSentence_iff (before : List Char) (q : Char) (rest : List Char) :
    EndsSentence before (q :: rest) ↔
      (nrm q == ' ' && back before.reverse 0 == '.' &&
        (!(back before.reverse 1).isUpper || (back before.reverse 2).isUpper)) = true := by
  rcases List.eq_nil_or_concat before with rfl | ⟨b, c, rfl⟩
  · constructor
    · rintro ⟨⟨b, hb, -⟩, -⟩
      simp at hb
    · intro h
      simp [back_nil, zero_char_facts.1] at h
  · simp only [List.concat_eq_append, List.reverse_append, List.reverse_singleton, List.singleton_append,
      back_cons_zero, back_cons_succ, Bool.and_eq_true, beq_iff_eq, nrm_eq_space, nrm_eq_dot]
    rw [← initial_iff]
    constructor
    · rintro ⟨⟨b2, hb2, hi⟩, c2, r2, hcr, hblank⟩
      obtain ⟨h1, h2⟩ := List.append_inj' hb2 rfl
      cases hcr
      subst h1
      exact ⟨⟨hblank, by simpa using h2⟩, hi⟩
    · rintro ⟨⟨hq, hc⟩, hi⟩
      exact ⟨⟨b, by rw [hc], hi⟩, q, rest, rfl, hq⟩

theorem firstSentenceLen_spec :
    ∀ (rest before : List Char),
      firstSentenceLen (back before.reverse 2) (back before.reverse 1) (back before.reverse 0) rest
          ≤ rest.length ∧
      (firstSentenceLen (back before.reverse 2) (back before.reverse 1) (back before.reverse 0)
          rest < rest.length →
        EndsSentence
          (before ++ rest.take (firstSentenceLen (back before.reverse 2) (back before.reverse 1)
            (back before.reverse 0) rest))
          (rest.drop (firstSentenceLen (back before.reverse 2) (back before.reverse 1)
            (back before.reverse 0) rest))) ∧
      (∀ j, j < firstSentenceLen (back before.reverse 2) (back before.reverse 1)
          (back before.reverse 0) rest →
        ¬ EndsSentence (before ++ rest.take j) (rest.drop j)) := by
  intro rest
  induction rest with
  | nil =>
    intro before
    simp [firstSentenceLen]
  | cons q rest ih =>
    intro before
    have hiff := endsSentence_iff before q rest
    have hstep := ih (before ++ [q])
    simp only [List.reverse_append, List.reverse_singleton, List.singleton_append,
      back_cons_zero, back_cons_succ] at hstep
    by_cases hc : (nrm q == ' ' && back before.reverse 0 == '.' &&
        (!(back before.reverse 1).isUpper || (back before.reverse 2).isUpper)) = true
    · have hlen : firstSentenceLen (back before.reverse 2) (back before.reverse 1)
          (back before.reverse 0) (q :: rest) = 0 := by
        simp only [firstSentenceLen]
        exact if_pos hc
      rw [hlen]
      refine ⟨Nat.zero_le _, fun _ => ?_, fun j hj => absurd hj (Nat.not_lt_zero j)⟩
      simpa using hiff.mpr hc
    · have hlen : firstSentenceLen (back before.reverse 2) (back before.reverse 1)
          (back before.reverse 0) (q :: rest)
          = firstSentenceLen (back before.reverse 1) (back before.reverse 0) (nrm q) rest + 1 := by
        simp only [firstSentenceLen]
        exact if_neg hc
      rw [hlen]
      obtain ⟨h1, h2, h3⟩ := hstep
      refine ⟨by simpa using h1, ?_, ?_⟩
      · intro hlt
        have := h2 (by simpa using hlt)
        simpa using this
      · intro j hj
        cases j with
        | zero =>
          intro he
          exact hc (hiff.mp (by simpa using he))
        | succ j =>
          have := h3 j (by omega)
          simpa using this

theorem nrm_blank (q c : Char) (h : c = nrm q) (hb : isBlankChar c = true) : c = ' ' := by
  subst h
  unfold nrm at hb ⊢
  cases hq : isBlankChar q with
  | true => simp
  | false => simp [hq] at hb

theorem cleanRun_cons (p q : Char) (rest : List Char) :
    cleanRun p (q :: rest)
      = if (nrm q != ' ' || p != ' ') = true then nrm q :: cleanRun (nrm q) rest
        else cleanRun p rest := rfl

theorem cleanRun_blank : ∀ (s : List Char) (p : Char),
    ∀ c ∈ cleanRun p s, isBlankChar c = true → c = ' ' := by
  intro s
  induction s with
  | nil => intro p c hc; simp [cleanRun] at hc
  | cons q rest ih =>
    intro p c hc hb
    rw [cleanRun_cons] at hc
    by_cases h : (nrm q != ' ' || p != ' ') = true
    · rw [if_pos h] at hc
      rcases List.mem_cons.mp hc with h1 | h1
      · exact nrm_blank q c h1 hb
      · exact ih _ c h1 hb
    · rw [if_neg h] at hc
      exact ih _ c hc hb

theorem cleanRun_chain : ∀ (s : List Char) (p : Char),
    List.Chain (fun a b => ¬ (a = ' ' ∧ b = ' ')) p (cleanRun p s) := by
  intro s
  induction s with
  | nil => intro p; simp [cleanRun]
  | cons q rest ih =>
    intro p
    rw [cleanRun_cons]
    by_cases h : (nrm q != ' ' || p != ' ') = true
    · rw [if_pos h]
      refine List.Chain.cons ?_ (ih _)
      rintro ⟨h1, h2⟩
      simp [h1, h2] at h
    · rw [if_neg h]
      exact ih _

theorem cleanRun_all_blank : ∀ (s : List Char), (∀ c ∈ s, isBlankChar c = true) →
    cleanRun ' ' s = [] := by
  intro s
  induction s with
  | nil => intro _; rfl
  | cons q rest ih =>
    intro h
    have hq : isBlankChar q = true := h q (List.mem_cons_self _ _)
    simp only [cleanRun, hq, if_true]
    simpa using ih (fun c hc => h c (List.mem_cons_of_mem _ hc))

theorem fieldsAux_cleanRun : ∀ (s : List Char) (p : Char) (cur : List Char),
    (p = ' ' → cur = []) → fieldsAux cur (cleanRun p s) = fieldsAux cur s := by
  intro s
  induction s with
  | nil => intro p cur _; rfl
  | cons q rest ih =>
    intro p cur hp
    cases hq : isBlankChar q with
    | true =>
      by_cases hps : p = ' '
      · have hcur := hp hps
        subst hcur
        subst hps
        simp only [cleanRun, hq, if_true, fieldsAux]
        simpa using ih ' ' [] (fun _ => rfl)
      · have hemit : cleanRun p (q :: rest) = ' ' :: cleanRun ' ' rest := by
          simp [cleanRun, hq, hps]
        rw [hemit]
        have hsp : isBlankChar ' ' = true := by decide
        simp only [fieldsAux, hsp, hq, if_true]
        rw [ih ' ' [] (fun _ => rfl)]
    | false =>
      have hne : q ≠ ' ' := by
        intro h; rw [h] at hq; exact absurd hq (by decide)
      have hemit : cleanRun p (q :: rest) = q :: cleanRun q rest := by
        simp [cleanRun, hq, hne]
      rw [hemit]
      simp only [fieldsAux, hq]
      exact ih q (q :: cur) (fun h => absurd h hne)

theorem fieldsAux_append_space : ∀ (r cur : List Char),
    fieldsAux cur (r ++ [' ']) = fieldsAux cur r := by
  intro r
  induction r with
  | nil =>
    intro cur
    have hsp : isBlankChar ' ' = true := by decide
    cases cur <;> simp [fieldsAux, hsp]
  | cons q rest ih =>
    intro cur
    simp only [List.cons_append, fieldsAux]
    split
    · split <;> simp [ih]
    · exact ih _

theorem clean_cases (s : List Char) :
    (clean s = cleanRun ' ' s ∧ (cleanRun ' ' s).getLast? ≠ some ' ') ∨
    (cleanRun ' ' s = clean s ++ [' ']) := by
  unfold clean
  by_cases h : (cleanRun ' ' s).getLast? = some ' '
  · right
    simp only [h, if_true]
    exact (List.dropLast_append_getLast? _ (by simpa using h)).symm
  · left
    simp [h]

theorem clean_blank (s : List Char) : ∀ c ∈ clean s, isBlankChar c = true → c = ' ' := by
  intro c hc hb
  rcases clean_cases s with ⟨h, -⟩ | h
  · rw [h] at hc
    exact cleanRun_blank s ' ' c hc hb
  · exact cleanRun_blank s ' ' c (by rw [h]; exact List.mem_append_left _ hc) hb

theorem clean_chain (s : List Char) :
    List.Chain' (fun a b => ¬ (a = ' ' ∧ b = ' ')) (' ' :: clean s) := by
  have hrun : List.Chain' (fun a b => ¬ (a = ' ' ∧ b = ' ')) (' ' :: cleanRun ' ' s) :=
    cleanRun_chain s ' '
  rcases clean_cases s with ⟨h, -⟩ | h
  · rw [h]; exact hrun
  · rw [h] at hrun
    exact @List.Chain'.left_of_append _ _ (' ' :: clean s) [' '] hrun

theorem clean_last (s : List Char) : (clean s).getLast? ≠ some ' ' := by
  rcases clean_cases s with ⟨h, hl⟩ | h
  · rw [h]; exact hl
  · intro hlast
    obtain ⟨r, hr⟩ := List.getLast?_eq_some_iff.mp hlast
    have hrun : List.Chain' (fun a b => ¬ (a = ' ' ∧ b = ' ')) (' ' :: cleanRun ' ' s) :=
      cleanRun_chain s ' '
    rw [h, hr] at hrun
    have h2 : List.Chain' (fun a b => ¬ (a = ' ' ∧ b = ' ')) ((' ' :: r) ++ [' ', ' ']) := by
      simpa using hrun
    have h3 := List.Chain'.right_of_append h2
    simp at h3

theorem clean_fields (s : List Char) : fieldsAux [] (clean s) = fieldsAux [] s := by
  rcases clean_cases s with ⟨h, -⟩ | h
  · rw [h]; exact fieldsAux_cleanRun s ' ' [] (fun _ => rfl)
  · rw [← fieldsAux_append_space, ← h]
    exact fieldsAux_cleanRun s ' ' [] (fun _ => rfl)

theorem clean_all_blank (s : List Char) (h : ∀ c ∈ s, isBlankChar c = true) : clean s = [] := by
  simp [clean, cleanRun_all_blank s h]

/-- C9: summary extracts the first sentence. The worked example holds; and for
every comment there is a cut point n such that (a) either n is the end of the
comment or the text before n ends with a sentence-terminating period followed
by white space, (b) no earlier cut point ends a sentence, (c) the words of the
result are exactly the words of the text before n (the trailing text is
dropped), and (d) the result holds no white space but single spaces between
words: no newline, carriage return or tab, no two adjacent spaces, no space at
either end. -/
theorem C9_summary_first_sentence (d : String) :
    summary "A short sentence. More text follows." = "A short sentence." ∧
    (∃ n, n ≤ d.data.length ∧
      (n < d.data.length → EndsSentence (d.data.take n) (d.data.drop n)) ∧
      (∀ j, j < n → ¬ EndsSentence (d.data.take j) (d.data.drop j)) ∧
      fieldsAux [] (summary d).data = fieldsAux [] (d.data.take n)) ∧
    (∀ c ∈ (summary d).data, isBlankChar c = true → c = ' ') ∧
    List.Chain' (fun a b => ¬ (a = ' ' ∧ b = ' ')) (summary d).data ∧
    (summary d).data.head? ≠ some ' ' ∧ (summary d).data.getLast? ≠ some ' ' := by
  have hspec := firstSentenceLen_spec d.data []
  simp only [List.reverse_nil, back_nil, List.nil_append] at hspec
  obtain ⟨h1, h2, h3⟩ := hspec
  have hch := clean_chain
    (d.data.take (firstSentenceLen (Char.ofNat 0) (Char.ofNat 0) (Char.ofNat 0) d.data))
  rw [List.chain'_cons'] at hch
  refine ⟨by decide, ⟨_, h1, h2, h3, clean_fields _⟩, clean_blank _, hch.2, ?_, clean_last _⟩
  intro hhead
  exact hch.1 ' ' (by simpa [summary, Synopsis] using hhead) ⟨rfl, rfl⟩

/-- C10: summary and description of the empty comment are empty, and summary of
a comment made of white space only (spaces, newlines, carriage returns, tabs)
is empty. -/
theorem C10_empty_and_blank_input (d : String) (h : ∀ c ∈ d.data, isBlankChar c = true) :
    summary "" = "" ∧ description "" = "" ∧ summary d = "" := by
  refine ⟨by decide, by decide, ?_⟩
  have hb : ∀ c ∈ d.data.take
      (firstSentenceLen (Char.ofNat 0) (Char.ofNat 0) (Char.ofNat 0) d.data),
      isBlankChar c = true := fun c hc => h c (List.mem_of_mem_take hc)
  simp [summary, Synopsis, clean_all_blank _ hb]

/-- Witness for C10: a comment of spaces, a newline and a tab. -/
theorem C10_empty_and_blank_input_witness :
    (∀ c ∈ ("  \n\t ").data, isBlankChar c = true) ∧
    (summary "" = "" ∧ description "" = "" ∧ summary "  \n\t " = "") :=
  ⟨by decide, C10_empty_and_blank_input "  \n\t " (by decide)⟩

/-! ### More claims -/

/-- C12: on a sequence of examples without nil pointers, the output example at
each position has the Name of the input example at that position, and its Code
is the renderer applied to the page info and to a commented node whose Node is
that example's Code and whose Comments is that example's own Comments. -/
theorem C12_example_commented_node {A : Type} (p : Presentation A) (info : Ptr (PageInfo A))
    (examples : Slice (Ptr (doc.Example A))) (he : NoNil examples) :
    ∃ out, toDocsExamples examples p info = some out ∧
      ∀ (i : Nat) (eg : doc.Example A), examples.toList[i]? = some (some eg) →
        ∃ y, out.toList[i]? = some y ∧ y.Name = eg.Name ∧
          y.Code = p.nodeFunc info
            (RenderArg.commented (printer.CommentedNode.mk eg.Code eg.Comments)) := by
  refine ⟨_, toDocsExamples_eq p info examples he, ?_⟩
  intro i eg h
  refine ⟨_, index_of_map _ _ i _ h, ?_⟩
  simp [exampleBody]

/-- Witness for C12: two examples, each with its own comment. -/
theorem C12_example_commented_node_witness :
    NoNil sampleTwoExamples ∧
    ∃ out, toDocsExamples sampleTwoExamples sampleP none = some out ∧
      ∀ (i : Nat) (eg : doc.Example String), sampleTwoExamples.toList[i]? = some (some eg) →
        ∃ y, out.toList[i]? = some y ∧ y.Name = eg.Name ∧
          y.Code = sampleP.nodeFunc none
            (RenderArg.commented (printer.CommentedNode.mk eg.Code eg.Comments)) :=
  ⟨by decide, C12_example_commented_node sampleP none sampleTwoExamples (by decide)⟩

/-- C14: for every well-formed page (a non-nil page info whose sequences and
notes hold no nil element, at any depth) and every renderer, toDocfx returns a
package: no nil pointer is dereferenced and no index is out of range. -/
theorem C14_total_on_well_formed {A : Type} (p : Presentation A) (info : PageInfo A)
    (hw : info.WF) : ∃ pkg, toDocfx p (some info) = some pkg := by
  cases hp : info.PDoc with
  | none =>
    obtain ⟨notes, dirs, -, -, hx⟩ := toDocfx_absent p info hp hw.2.1
    exact ⟨_, hx⟩
  | some pdoc =>
    obtain ⟨notes, dirs, ex, c, v, f, t, -, -, -, -, -, -, -, hx⟩ :=
      toDocfx_present p info pdoc hp hw
    exact ⟨_, hx⟩

/-- Witness for C14: the sample page. -/
theorem C14_total_on_well_formed_witness :
    sampleInfo.WF ∧ ∃ pkg, toDocfx sampleP (some sampleInfo) = some pkg :=
  ⟨by decide, C14_total_on_well_formed sampleP sampleInfo (by decide)⟩

/-- C15: for a page whose primary documentation section is absent (and whose
notes hold no nil pointer), the package returned by toDocfx has no examples,
whatever the input's Examples sequence holds. -/
theorem C15_absent_pdoc_no_examples {A : Type} (p : Presentation A) (info : PageInfo A)
    (hp : info.PDoc = none) (hn : NotesWF info.Notes) :
    ∃ pkg, toDocfx p (some info) = some pkg ∧ pkg.Examples.len = 0 ∧
      pkg.Examples.toList = [] := by
  obtain ⟨notes, dirs, -, -, hx⟩ := toDocfx_absent p info hp hn
  exact ⟨_, hx, rfl, rfl⟩

/-- Witness for C15: the sample bare directory, whose input has one example. -/
theorem C15_absent_pdoc_no_examples_witness :
    (sampleBare.PDoc = none ∧ NotesWF sampleBare.Notes) ∧ sampleBare.Examples.len = 1 ∧
    ∃ pkg, toDocfx sampleP (some sampleBare) = some pkg ∧ pkg.Examples.len = 0 ∧
      pkg.Examples.toList = [] :=
  ⟨⟨rfl, by decide⟩, by decide,
    C15_absent_pdoc_no_examples sampleP sampleBare rfl (by decide)⟩

/-- C16: for a page whose primary documentation section is absent, toDocfx
gives the same outcome with any two renderers: the renderer is not consulted. -/
theorem C16_absent_pdoc_ignores_renderer {A : Type} (info : PageInfo A)
    (hp : info.PDoc = none) (r1 r2 : Presentation A) :
    toDocfx r1 (some info) = toDocfx r2 (some info) := by
  cases hn : toDocsNotes info.Notes with
  | none => simp [toDocfx, hn]
  | some notes =>
    cases hd : toDocsDirs info.Dirs with
    | none => simp [toDocfx, hn, hd]
    | some dirs => simp [toDocfx, hn, hd, hp]

/-- Witness for C16: the sample bare directory under two different renderers,
which returns a package. -/
theorem C16_absent_pdoc_ignores_renderer_witness :
    sampleBare.PDoc = none ∧
    toDocfx sampleP (some sampleBare) = toDocfx sampleQ (some sampleBare) ∧
    (toDocfx sampleP (some sampleBare)).isSome = true :=
  ⟨rfl, C16_absent_pdoc_ignores_renderer sampleBare rfl sampleP sampleQ, by decide⟩

/-- C17: for every non-nil directory list, toDocsDirs returns one directory per
input directory, in order, with Name, Path and HasPkg copied and Summary equal
to the input's Synopsis verbatim; the synopsis is not passed through summary(),
as the two-sentence synopsis of the sample shows. -/
theorem C17_dirs_copied_verbatim (dl : DirList) :
    (∃ out, toDocsDirs (some dl) = some out ∧ out.len = dl.List.len ∧
      ∀ (i : Nat) (d : DirEntry), dl.List.toList[i]? = some d →
        ∃ y, out.toList[i]? = some y ∧ y.Name = d.Name ∧ y.Path = d.Path ∧
          y.HasPkg = d.HasPkg ∧ y.Summary = d.Synopsis) ∧
    toDocsDirs (some sampleLongDirs)
      = some (Slice.mk [DocsDir.mk "a" "x/a" "Does it. And more." true]) ∧
    summary "Does it. And more." = "Does it." := by
  refine ⟨⟨_, toDocsDirs_eq dl, by simp [Slice.len, Slice.toList], ?_⟩, by decide, by decide⟩
  intro i d h
  exact ⟨_, index_of_map _ _ i _ h, rfl, rfl, rfl, rfl⟩

/-! ### The order in which the notes map is visited -/

theorem rangeAssign_some_imp {α β : Type} (body : α → Option β) :
    ∀ (xs : List α) (i : Nat) (arr out : Slice β), rangeAssign body xs i arr = some out →
      ∀ x ∈ xs, (body x).isSome = true := by
  intro xs
  induction xs with
  | nil => intro i arr out _ x hx; simp at hx
  | cons a xs ih =>
    intro i arr out h x hx
    simp only [rangeAssign] at h
    cases hb : body a with
    | none => simp [hb] at h
    | some y =>
      simp only [hb] at h
      cases hs : arr.set i y with
      | none => simp [hs] at h
      | some arr1 =>
        simp only [hs] at h
        rcases List.mem_cons.mp hx with rfl | hx2
        · simp [hb]
        · exact ih (i + 1) arr1 out h x hx2

theorem rangeNotes_some_imp :
    ∀ (es : List (Sigma (fun _ : String => Slice (Ptr doc.Note))))
      (m r : AList (fun _ : String => Slice DocsNote)),
      rangeNotes es m = some r → ∀ e ∈ es, NoNil e.2 := by
  intro es
  induction es with
  | nil => intro m r _ e he; simp at he
  | cons a es ih =>
    intro m r h e he
    obtain ⟨k, v⟩ := a
    simp only [rangeNotes] at h
    cases ha : rangeAssign noteBody v.toList 0 (Slice.make DocsNote.zero v.len) with
    | none => simp [ha] at h
    | some arr =>
      simp only [ha] at h
      rcases List.mem_cons.mp he with rfl | he2
      · intro x hx
        have := rangeAssign_some_imp noteBody _ _ _ _ ha x hx
        cases x with
        | none => simp [noteBody] at this
        | some n => rfl
      · exact ih _ r h e he2

theorem entries_nodupKeys {V : Type} (m : GoMap V) : m.entries.NodupKeys := by
  cases m with
  | null => exact List.nodupKeys_nil
  | mk t => exact t.nodupKeys

theorem rangeNotes_perm (es1 es2 : List (Sigma (fun _ : String => Slice (Ptr doc.Note))))
    (hperm : es1.Perm es2) (hnd : es2.NodupKeys) :
    (rangeNotes es1 ∅ = none ∧ rangeNotes es2 ∅ = none) ∨
    ∃ m1 m2, rangeNotes es1 ∅ = some m1 ∧ rangeNotes es2 ∅ = some m2 ∧
      ∀ k : String, m1.lookup k = m2.lookup k := by
  have hnd1 : es1.NodupKeys := (List.perm_nodupKeys hperm).mpr hnd
  by_cases hwf : ∀ e ∈ es2, NoNil e.2
  · right
    have hwf1 : ∀ e ∈ es1, NoNil e.2 := fun e he => hwf e (hperm.mem_iff.mp he)
    refine ⟨_, _, rangeNotes_eq es1 ∅ hwf1, rangeNotes_eq es2 ∅ hwf, ?_⟩
    intro k
    rw [lookup_foldl_insert k es1 ∅ hnd1, lookup_foldl_insert k es2 ∅ hnd,
      List.perm_dlookup k hnd1 hnd hperm]
  · left
    constructor
    · cases h : rangeNotes es1 ∅ with
      | none => rfl
      | some r =>
        exact absurd (fun e he => rangeNotes_some_imp es1 ∅ r h e (hperm.mem_iff.mpr he)) hwf
    · cases h : rangeNotes es2 ∅ with
      | none => rfl
      | some r => exact absurd (rangeNotes_some_imp es2 ∅ r h) hwf

theorem toDocfx_notes {A : Type} (p : Presentation A) (info : PageInfo A) (pkg : DocsPackage)
    (h : toDocfx p (some info) = some pkg) : toDocsNotes info.Notes = some pkg.Notes := by
  cases hn : toDocsNotes info.Notes with
  | none => simp [toDocfx, hn] at h
  | some notes =>
  cases hd : toDocsDirs info.Dirs with
  | none => simp [toDocfx, hn, hd] at h
  | some dirs =>
  cases hp : info.PDoc with
  | none =>
    simp only [toDocfx, hn, hd, hp, Option.some.injEq] at h
    rw [← h]
  | some pdoc =>
  cases he : toDocsExamples info.Examples p (some info) with
  | none => simp [toDocfx, hn, hd, hp, he] at h
  | some ex =>
  cases hc : toDocsValues pdoc.Consts p (some info) with
  | none => simp [toDocfx, hn, hd, hp, he, hc] at h
  | some c =>
  cases hv : toDocsValues pdoc.Vars p (some info) with
  | none => simp [toDocfx, hn, hd, hp, he, hc, hv] at h
  | some v =>
  cases hf : toDocsFuncs pdoc.Funcs p (some info) with
  | none => simp [toDocfx, hn, hd, hp, he, hc, hv, hf] at h
  | some f =>
  cases ht : toDocsTypes pdoc.Types p (some info) with
  | none => simp [toDocfx, hn, hd, hp, he, hc, hv, hf, ht] at h
  | some t =>
    simp only [toDocfx, hn, hd, hp, he, hc, hv, hf, ht, Option.some.injEq] at h
    rw [← h]

theorem toDocfx_none_of_notes {A : Type} (p : Presentation A) (info : PageInfo A)
    (h : toDocsNotes info.Notes = none) : toDocfx p (some info) = none := by
  simp [toDocfx, h]

/-- C11: determinism. The one place where a Go run may differ from another on
the same input is the order in which `range` visits the notes map. For any two
visiting orders of the page's notes, the notes loop has the same outcome: it
panics in both or returns in both, with the same sequence under every key. The
Notes of the package returned by toDocfx are what the loop gives in any order,
and toDocfx panics whenever the loop does. Everything else is a function of the
input and of the renderer: two packages returned for the same input and
renderer are equal, and summary and description return equal output on equal
input. -/
theorem C11_determinism {A : Type} (p : Presentation A) (info : PageInfo A)
    (order1 order2 : List (Sigma (fun _ : String => Slice (Ptr doc.Note))))
    (h1 : order1.Perm info.Notes.entries) (h2 : order2.Perm info.Notes.entries) :
    (rangeNotes order1 ∅).isSome = (rangeNotes order2 ∅).isSome ∧
    (∀ m1 m2, rangeNotes order1 ∅ = some m1 → rangeNotes order2 ∅ = some m2 →
      ∀ k : String, m1.lookup k = m2.lookup k) ∧
    (∀ pkg, toDocfx p (some info) = some pkg →
      ∃ m1, rangeNotes order1 ∅ = some m1 ∧ pkg.Notes.isNil = false ∧
        ∀ k : String, pkg.Notes.lookup k = m1.lookup k) ∧
    (rangeNotes order1 ∅ = none → toDocfx p (some info) = none) ∧
    (∀ pkg1 pkg2, toDocfx p (some info) = some pkg1 → toDocfx p (some info) = some pkg2 →
      pkg1 = pkg2) ∧
    (∀ d1 d2 : String, d1 = d2 → summary d1 = summary d2 ∧ description d1 = description d2) := by
  have hnd := entries_nodupKeys info.Notes
  have h12 : order1.Perm order2 := h1.trans h2.symm
  have hnd2 : order2.NodupKeys := (List.perm_nodupKeys h2).mpr hnd
  have key12 := rangeNotes_perm order1 order2 h12 hnd2
  have key1 := rangeNotes_perm order1 info.Notes.entries h1 hnd
  refine ⟨?_, ?_, ?_, ?_, ?_, ?_⟩
  · rcases key12 with ⟨ha, hb⟩ | ⟨m1, m2, ha, hb, -⟩ <;> simp [ha, hb]
  · intro m1 m2 ha hb k
    rcases key12 with ⟨hc, -⟩ | ⟨n1, n2, hc, hd, hk⟩
    · rw [hc] at ha; cases ha
    · rw [hc] at ha; rw [hd] at hb
      cases ha; cases hb
      exact hk k
  · intro pkg hx
    have hn := toDocfx_notes p info pkg hx
    rcases key1 with ⟨-, hc⟩ | ⟨n1, n2, hc, hd, hk⟩
    · simp [toDocsNotes, hc] at hn
    · refine ⟨n1, hc, ?_, ?_⟩
      · simp only [toDocsNotes, hd, Option.map_some', Option.some.injEq] at hn
        rw [← hn]; rfl
      · intro k
        simp only [toDocsNotes, hd, Option.map_some', Option.some.injEq] at hn
        rw [← hn]
        exact (hk k).symm
  · intro hnone
    apply toDocfx_none_of_notes
    rcases key1 with ⟨-, hc⟩ | ⟨n1, n2, hc, -, -⟩
    · simp [toDocsNotes, hc]
    · rw [hc] at hnone; cases hnone
  · intro pkg1 pkg2 ha hb
    exact Option.some.inj (ha.symm.trans hb)
  · intro d1 d2 hd
    subst hd
    exact ⟨rfl, rfl⟩

/-- Witness for C11: the two-marker notes map visited in its stored order and
in the reverse order, which differ. -/
theorem C11_determinism_witness :
    (sampleTwoNotes.entries.Perm sampleNotesPage.Notes.entries ∧
      sampleTwoNotes.entries.reverse.Perm sampleNotesPage.Notes.entries ∧
      sampleTwoNotes.entries.reverse ≠ sampleTwoNotes.entries) ∧
    ((rangeNotes sampleTwoNotes.entries ∅).isSome
        = (rangeNotes sampleTwoNotes.entries.reverse ∅).isSome ∧
    (∀ m1 m2, rangeNotes sampleTwoNotes.entries ∅ = some m1 →
      rangeNotes sampleTwoNotes.entries.reverse ∅ = some m2 →
      ∀ k : String, m1.lookup k = m2.lookup k) ∧
    (∀ pkg, toDocfx sampleP (some sampleNotesPage) = some pkg →
      ∃ m1, rangeNotes sampleTwoNotes.entries ∅ = some m1 ∧ pkg.Notes.isNil = false ∧
        ∀ k : String, pkg.Notes.lookup k = m1.lookup k) ∧
    (rangeNotes sampleTwoNotes.entries ∅ = none →
      toDocfx sampleP (some sampleNotesPage) = none) ∧
    (∀ pkg1 pkg2, toDocfx sampleP (some sampleNotesPage) = some pkg1 →
      toDocfx sampleP (some sampleNotesPage) = some pkg2 → pkg1 = pkg2) ∧
    (∀ d1 d2 : String, d1 = d2 →
      summary d1 = summary d2 ∧ description d1 = description d2)) :=
  ⟨⟨List.Perm.refl _, List.reverse_perm _, by decide⟩,
    C11_determinism sampleP sampleNotesPage sampleTwoNotes.entries
      sampleTwoNotes.entries.reverse (List.Perm.refl _) (List.reverse_perm _)⟩

/-! ### The description: words, lines and blocks -/

theorem fieldsAux_nonempty : ∀ (s cur : List Char), ∀ w ∈ fieldsAux cur s, w ≠ [] := by
  intro s
  induction s with
  | nil =>
    intro cur w hw
    cases cur with
    | nil => simp [fieldsAux] at hw
    | cons c cs =>
      simp [fieldsAux] at hw
      rw [hw]; simp
  | cons q rest ih =>
    intro cur w hw
    simp only [fieldsAux] at hw
    split at hw
    · split at hw
      · exact ih _ w hw
      · next hne =>
        rcases List.mem_cons.mp hw with h | h
        · rw [h]
          intro hr
          exact hne (by simpa using hr)
        · exact ih _ w h
    · exact ih _ w hw

theorem fieldsAux_noblank : ∀ (s cur : List Char), (∀ c ∈ cur, isBlankChar c = false) →
    ∀ w ∈ fieldsAux cur s, ∀ c ∈ w, isBlankChar c = false := by
  intro s
  induction s with
  | nil =>
    intro cur hcur w hw c hc
    cases cur with
    | nil => simp [fieldsAux] at hw
    | cons a as =>
      simp [fieldsAux] at hw
      rw [hw] at hc
      exact hcur c (by simpa [or_comm] using hc)
  | cons q rest ih =>
    intro cur hcur w hw c hc
    simp only [fieldsAux] at hw
    split at hw
    · split at hw
      · exact ih [] (by simp) w hw c hc
      · rcases List.mem_cons.mp hw with h | h
        · rw [h] at hc
          exact hcur c (by simpa using hc)
        · exact ih [] (by simp) w h c hc
    · next hq =>
      refine ih (q :: cur) ?_ w hw c hc
      intro x hx
      rcases List.mem_cons.mp hx with h | h
      · rw [h]; simpa using hq
      · exact hcur x h

theorem joinWords_cons (w : List Char) (ws : List (List Char)) :
    joinWords (w :: ws) = w ++ ws.flatMap (fun x => ' ' :: x) := by
  induction ws generalizing w with
  | nil => simp [joinWords]
  | cons w2 ws ih => simp [joinWords, ih w2]

theorem wrapWords_fits (indent : List Char) (width : Nat) :
    ∀ (ws : List (List Char)) (n : Nat), (∀ w ∈ ws, w ≠ []) → n ≠ 0 →
      n + (ws.flatMap (fun x => ' ' :: x)).length ≤ width →
      wrapWords indent width n ws = ws.flatMap (fun x => ' ' :: x) ++ ['\n'] := by
  intro ws
  induction ws with
  | nil => intro n _ hn _; simp [wrapWords, hn]
  | cons w ws ih =>
    intro n hne hn hfit
    simp only [List.flatMap_cons, List.length_append, List.length_cons] at hfit
    have hnb : ¬ (n + 1 + w.length > width) := by omega
    simp only [wrapWords, hn, if_false, hnb]
    rw [ih (n + 1 + w.length) (fun x hx => hne x (List.mem_cons_of_mem _ hx)) (by omega)
      (by omega)]
    simp

theorem wrapWords_one_line (indent : List Char) (width : Nat) (w : List Char)
    (ws : List (List Char)) (hne : ∀ x ∈ w :: ws, x ≠ [])
    (hfit : (joinWords (w :: ws)).length ≤ width) :
    wrapWords indent width 0 (w :: ws) = indent ++ joinWords (w :: ws) ++ ['\n'] := by
  have hw : w.length ≠ 0 := by
    have := hne w (List.mem_cons_self _ _)
    simpa using this
  rw [joinWords_cons] at hfit ⊢
  simp only [List.length_append] at hfit
  simp only [wrapWords, if_true]
  rw [wrapWords_fits indent width ws w.length
    (fun x hx => hne x (List.mem_cons_of_mem _ hx)) hw hfit]
  simp

theorem joinWords_no_newline : ∀ (ws : List (List Char)),
    (∀ w ∈ ws, ∀ c ∈ w, isBlankChar c = false) → '\n' ∉ joinWords ws := by
  intro ws h hmem
  cases ws with
  | nil => simp [joinWords] at hmem
  | cons w ws =>
    rw [joinWords_cons] at hmem
    rcases List.mem_append.mp hmem with h1 | h1
    · exact absurd (h w (List.mem_cons_self _ _) _ h1) (by decide)
    · obtain ⟨x, hx, hc⟩ := List.mem_flatMap.mp h1
      rcases List.mem_cons.mp hc with h2 | h2
      · exact absurd h2 (by decide)
      · exact absurd (h x (List.mem_cons_of_mem _ hx) _ h2) (by decide)

theorem renderBlocks_eq (indent preIndent : List Char) (width : Nat) :
    ∀ bs : List Block, renderBlocks indent preIndent width bs
      = List.intercalate ['\n'] (bs.map (renderBlock indent preIndent width)) := by
  intro bs
  induction bs with
  | nil => simp [renderBlocks, List.intercalate]
  | cons b bs ih =>
    cases bs with
    | nil => simp [renderBlocks, List.intercalate]
    | cons b2 bs =>
      rw [renderBlocks, ih]
      · simp [List.intercalate]
      · simp

theorem closeBlock_para (cur : Option Block)
    (hcur : ∀ ls, cur = some (Block.para ls) → ls ≠ [] ∧ ∀ l ∈ ls, isBlankLine l = false) :
    ∀ ls, Block.para ls ∈ closeBlock cur → ls ≠ [] ∧ ∀ l ∈ ls, isBlankLine l = false := by
  intro ls hmem
  rcases cur with _ | (ls0 | ls0)
  · simp [closeBlock] at hmem
  · simp only [closeBlock, List.mem_singleton, Block.para.injEq] at hmem
    obtain ⟨h1, h2⟩ := hcur ls0 rfl
    subst hmem
    exact ⟨by simpa using h1, fun l hl => h2 l (by simpa using hl)⟩
  · simp [closeBlock] at hmem

theorem blocksAux_para : ∀ (lines : List (List Char)) (cur : Option Block),
    (∀ ls, cur = some (Block.para ls) → ls ≠ [] ∧ ∀ l ∈ ls, isBlankLine l = false) →
    ∀ ls, Block.para ls ∈ blocksAux cur lines →
      ls ≠ [] ∧ ∀ l ∈ ls, isBlankLine l = false := by
  intro lines
  induction lines with
  | nil =>
    intro cur hcur ls hmem
    exact closeBlock_para cur hcur ls (by simpa [blocksAux] using hmem)
  | cons l rest ih =>
    intro cur hcur ls hmem
    have hnone : ∀ ls, (none : Option Block) = some (Block.para ls) →
        ls ≠ [] ∧ ∀ l ∈ ls, isBlankLine l = false := by
      intro ls h; cases h
    cases hb : isBlankLine l with
    | true =>
      simp only [blocksAux, hb, if_true] at hmem
      rcases List.mem_append.mp hmem with h | h
      · exact closeBlock_para cur hcur ls h
      · exact ih none hnone ls h
    | false =>
      cases hi : isIndented l with
      | true =>
        have hpre : ∀ (x : List (List Char)) (ls : List (List Char)),
            some (Block.pre x) = some (Block.para ls) →
            ls ≠ [] ∧ ∀ l ∈ ls, isBlankLine l = false := by
          intro x ls h; cases h
        rcases cur with _ | (ls0 | ls0)
        · simp only [blocksAux, hb, hi, if_true, Bool.false_eq_true, if_false] at hmem
          rcases List.mem_append.mp hmem with h | h
          · exact closeBlock_para none hcur ls h
          · exact ih _ (hpre _) ls h
        · simp only [blocksAux, hb, hi, if_true, Bool.false_eq_true, if_false] at hmem
          rcases List.mem_append.mp hmem with h | h
          · exact closeBlock_para _ hcur ls h
          · exact ih _ (hpre _) ls h
        · simp only [blocksAux, hb, hi, if_true, Bool.false_eq_true, if_false] at hmem
          exact ih _ (hpre _) ls hmem
      | false =>
        have hone : ∀ ls, some (Block.para [l]) = some (Block.para ls) →
            ls ≠ [] ∧ ∀ x ∈ ls, isBlankLine x = false := by
          intro ls h
          cases h
          exact ⟨by simp, fun x hx => by rw [List.mem_singleton.mp hx]; exact hb⟩
        rcases cur with _ | (ls0 | ls0)
        · simp only [blocksAux, hb, hi, Bool.false_eq_true, if_false] at hmem
          rcases List.mem_append.mp hmem with h | h
          · exact closeBlock_para none hcur ls h
          · exact ih _ hone ls h
        · simp only [blocksAux, hb, hi, Bool.false_eq_true, if_false] at hmem
          refine ih _ ?_ ls hmem
          intro ls2 h
          cases h
          obtain ⟨-, h2⟩ := hcur ls0 rfl
          refine ⟨by simp, fun x hx => ?_⟩
          rcases List.mem_cons.mp hx with h3 | h3
          · rw [h3]; exact hb
          · exact h2 x h3
        · simp only [blocksAux, hb, hi, Bool.false_eq_true, if_false] at hmem
          rcases List.mem_append.mp hmem with h | h
          · exact closeBlock_para _ hcur ls h
          · exact ih _ hone ls h

theorem fieldsAux_ne_nil_of_cur : ∀ (s cur : List Char), cur ≠ [] → fieldsAux cur s ≠ [] := by
  intro s
  induction s with
  | nil =>
    intro cur hcur
    cases cur with
    | nil => exact absurd rfl hcur
    | cons c cs => simp [fieldsAux]
  | cons q rest ih =>
    intro cur hcur
    cases cur with
    | nil => exact absurd rfl hcur
    | cons c cs =>
      simp only [fieldsAux]
      split
      · simp
      · exact ih _ (by simp)

theorem fieldsAux_ne_nil : ∀ (s cur : List Char), (∃ c ∈ s, isBlankChar c = false) →
    fieldsAux cur s ≠ [] := by
  intro s
  induction s with
  | nil => intro cur h; obtain ⟨c, hc, -⟩ := h; simp at hc
  | cons q rest ih =>
    intro cur h
    cases hq : isBlankChar q with
    | false =>
      simp only [fieldsAux, hq, Bool.false_eq_true, if_false]
      exact fieldsAux_ne_nil_of_cur rest (q :: cur) (by simp)
    | true =>
      have hrest : ∃ c ∈ rest, isBlankChar c = false := by
        obtain ⟨c, hc, hcb⟩ := h
        rcases List.mem_cons.mp hc with h1 | h1
        · rw [h1, hq] at hcb; cases hcb
        · exact ⟨c, h1, hcb⟩
      simp only [fieldsAux, hq, if_true]
      split
      · exact ih [] hrest
      · simp

theorem wordsOf_ne_nil (ls : List (List Char)) (hne : ls ≠ [])
    (hb : ∀ l ∈ ls, isBlankLine l = false) : wordsOf ls ≠ [] := by
  cases ls with
  | nil => exact absurd rfl hne
  | cons l rest =>
    have hl := hb l (List.mem_cons_self _ _)
    have hex : ∃ c ∈ l, isBlankChar c = false := by
      simpa [isBlankLine] using hl
    have := fieldsAux_ne_nil l [] hex
    simp [wordsOf, this]

theorem splitLinesAux_no_newline : ∀ (s cur : List Char), '\n' ∉ s → cur.reverse ++ s ≠ [] →
    splitLinesAux cur s = [cur.reverse ++ s] := by
  intro s
  induction s with
  | nil =>
    intro cur _ hne
    cases cur with
    | nil => simp at hne
    | cons c cs => simp [splitLinesAux]
  | cons q rest ih =>
    intro cur hnl _
    have hq : q ≠ '\n' := fun h => hnl (by simp [h])
    have hrest : '\n' ∉ rest := fun h => hnl (List.mem_cons_of_mem _ h)
    simp only [splitLinesAux, beq_iff_eq, hq, if_false]
    rw [ih (q :: cur) hrest (by simp)]
    simp

theorem fieldsAux_word : ∀ (w cur rest : List Char), (∀ c ∈ w, isBlankChar c = false) →
    fieldsAux cur (w ++ rest) = fieldsAux (w.reverse ++ cur) rest := by
  intro w
  induction w with
  | nil => intro cur rest _; rfl
  | cons q w ih =>
    intro cur rest h
    have hq := h q (List.mem_cons_self _ _)
    have e : fieldsAux cur (q :: (w ++ rest)) = fieldsAux (q :: cur) (w ++ rest) := by
      simp [fieldsAux, hq]
    rw [List.cons_append, e, ih (q :: cur) rest (fun c hc => h c (List.mem_cons_of_mem _ hc))]
    simp

theorem fieldsAux_two_words (w1 w2 : List Char) (h1 : w1 ≠ []) (h2 : w2 ≠ [])
    (hb1 : ∀ c ∈ w1, isBlankChar c = false) (hb2 : ∀ c ∈ w2, isBlankChar c = false) :
    fieldsAux [] (w1 ++ ' ' :: w2) = [w1, w2] := by
  have hsp : isBlankChar ' ' = true := by decide
  have hr1 : w1.reverse ≠ [] := by simpa using h1
  have hr2 : w2.reverse ≠ [] := by simpa using h2
  rw [fieldsAux_word w1 [] (' ' :: w2) hb1]
  simp only [List.append_nil, fieldsAux, hsp, if_true, List.isEmpty_eq_true, hr1, if_false,
    List.reverse_reverse]
  have := fieldsAux_word w2 [] [] hb2
  simp only [List.append_nil] at this
  rw [this]
  simp [fieldsAux, hr2]

theorem description_two_words (w1 w2 : List Char) (h1 : w1 ≠ []) (h2 : w2 ≠ [])
    (hb1 : ∀ c ∈ w1, isBlankChar c = false) (hb2 : ∀ c ∈ w2, isBlankChar c = false)
    (hw : w1.length + 1 + w2.length > 999999) :
    description (String.mk (w1 ++ ' ' :: w2)) = String.mk (w1 ++ '\n' :: (w2 ++ ['\n'])) := by
  obtain ⟨c, w, rfl⟩ := List.exists_cons_of_ne_nil h1
  have hc : isBlankChar c = false := hb1 c (List.mem_cons_self _ _)
  have hnl : '\n' ∉ (c :: w) ++ ' ' :: w2 := by
    intro hmem
    rcases List.mem_append.mp hmem with h | h
    · exact absurd (hb1 _ h) (by decide)
    · rcases List.mem_cons.mp h with h3 | h3
      · exact absurd h3 (by decide)
      · exact absurd (hb2 _ h3) (by decide)
  have hlines : splitLinesAux [] ((c :: w) ++ ' ' :: w2) = [(c :: w) ++ ' ' :: w2] := by
    have := splitLinesAux_no_newline ((c :: w) ++ ' ' :: w2) [] hnl (by simp)
    simpa using this
  have hblank : isBlankLine ((c :: w) ++ ' ' :: w2) = false := by
    simp [isBlankLine, hc]
  have hind : isIndented ((c :: w) ++ ' ' :: w2) = false := by
    have h3 : c ≠ ' ' := fun h => by rw [h] at hc; exact absurd hc (by decide)
    have h4 : c ≠ '\t' := fun h => by rw [h] at hc; exact absurd hc (by decide)
    simp [isIndented, h3, h4]
  have hblocks : blocksAux none [(c :: w) ++ ' ' :: w2] = [Block.para [(c :: w) ++ ' ' :: w2]] := by
    simp only [blocksAux, hblank, hind, closeBlock, Bool.false_eq_true, if_false,
      List.nil_append, List.reverse_singleton]
  have hwords := fieldsAux_two_words (c :: w) w2 h1 h2 hb1 hb2
  have hl1 : (c :: w).length ≠ 0 := by simp
  have hl2 : w2.length ≠ 0 := by simpa using h2
  have hwrap : wrapWords [] 999999 0 [c :: w, w2] = (c :: w) ++ '\n' :: (w2 ++ ['\n']) := by
    simp only [wrapWords, if_true, hl1, if_false, hw, hl2, List.nil_append]
  unfold description ToText
  have hdata : (String.mk ((c :: w) ++ ' ' :: w2)).data = (c :: w) ++ ' ' :: w2 := rfl
  have hempty : ("" : String).data = [] := rfl
  rw [hdata, hlines, hblocks, hempty]
  simp only [renderBlocks, renderBlock, List.flatMap_cons, List.flatMap_nil, List.append_nil]
  rw [hwords, hwrap]

/-- C13, as stated, fails on a single paragraph line of 1000001 characters (two
words of 500000 letters each): description splits it across two output lines. -/
theorem C13_counterexample :
    description (String.mk (List.replicate 500000 'a' ++ ' ' :: List.replicate 500000 'a'))
      = String.mk (List.replicate 500000 'a' ++ '\n' :: (List.replicate 500000 'a' ++ ['\n'])) := by
  have hne : ∀ n : Nat, n ≠ 0 → List.replicate n 'a' ≠ [] := by
    intro n hn h
    have := congrArg List.length h
    rw [List.length_replicate] at this
    exact hn this
  have hnb : ∀ n : Nat, ∀ c ∈ List.replicate n 'a', isBlankChar c = false := by
    intro n c hc
    rw [List.eq_of_mem_replicate hc]
    decide
  have hlen : ∀ n m : Nat, n + 1 + m > 999999 →
      (List.replicate n 'a').length + 1 + (List.replicate m 'a').length > 999999 := by
    intro n m h
    rw [List.length_replicate, List.length_replicate]
    exact h
  exact description_two_words _ _ (hne 500000 (by decide)) (hne 500000 (by decide))
    (hnb 500000) (hnb 500000) (hlen 500000 500000 (by decide))

/-- C13, amended: description renders the blocks of the comment one after the
other, separated by one blank line. A paragraph whose words, joined by single
spaces, are at most 999999 characters long is written on exactly one output
line (so none of its input lines is split); only a wider paragraph can be
wrapped. The lines of a preformatted block lose their common indentation and are
each written after the fixed four-space indent. -/
theorem C13_description_reflow (d : String) :
    (description d).data
      = List.intercalate ['\n'] ((blocksOf d).map (renderBlock [] [' ', ' ', ' ', ' '] 999999)) ∧
    (∀ ls, Block.para ls ∈ blocksOf d → (joinWords (wordsOf ls)).length ≤ 999999 →
      renderBlock [] [' ', ' ', ' ', ' '] 999999 (Block.para ls)
          = joinWords (wordsOf ls) ++ ['\n'] ∧
        '\n' ∉ joinWords (wordsOf ls)) ∧
    (∀ ls, Block.pre ls ∈ blocksOf d →
      renderBlock [] [' ', ' ', ' ', ' '] 999999 (Block.pre ls)
        = ls.flatMap
            (fun l => [' ', ' ', ' ', ' '] ++ l.drop (commonIndent ls).length ++ ['\n'])) ∧
    description "A line.\nNext line.\n\n\tcode\n" = "A line. Next line.\n\n    code\n" := by
  refine ⟨?_, ?_, fun ls _ => rfl, by decide⟩
  · rw [← renderBlocks_eq]
    rfl
  · intro ls hmem hfit
    obtain ⟨hne, hnb⟩ := blocksAux_para _ none (fun ls h => by cases h) ls hmem
    have hwne := wordsOf_ne_nil ls hne hnb
    have hall : ∀ w ∈ wordsOf ls, w ≠ [] := by
      intro w hw
      obtain ⟨l, -, hl⟩ := List.mem_flatMap.mp hw
      exact fieldsAux_nonempty l [] w hl
    have hchars : ∀ w ∈ wordsOf ls, ∀ c ∈ w, isBlankChar c = false := by
      intro w hw
      obtain ⟨l, -, hl⟩ := List.mem_flatMap.mp hw
      exact fieldsAux_noblank l [] (by simp) w hl
    refine ⟨?_, joinWords_no_newline _ hchars⟩
    obtain ⟨w, ws, hws⟩ := List.exists_cons_of_ne_nil hwne
    have hrender : renderBlock [] [' ', ' ', ' ', ' '] 999999 (Block.para ls)
        = wrapWords [] 999999 0 (wordsOf ls) := rfl
    rw [hrender, hws]
    rw [hws] at hfit hall
    rw [wrapWords_one_line [] 999999 w ws hall hfit]
    simp

end Godoc
